import Mathlib

/-!
Verification development for the medici-uy shared content library: the
canonicalization, content-hashing and sync-diff core.  The Rust sources are
shallowly embedded: structs become structures, methods become functions,
`Result<T>` becomes `Except String T`, machine integers become `Nat`/`Int`,
and the external blake3 hex digest is an explicit function parameter
(`Digest`); its collision resistance is idealized as injectivity where a
statement needs it.  The embedding follows `src/sync/*` (current generation)
and, in the `Legacy` namespace, the older `src/data.rs` generation.
-/

namespace MediciShared

/-- Bytes are modelled as natural numbers (values < 256 where it matters). -/
abbrev Byte := Nat

/-- Models the external digest `hex(blake3(bytes))` (the fingerprint) as an
arbitrary function on byte sequences; theorems that need collision freedom
take injectivity as a hypothesis. -/
abbrev Digest := List Byte → List Byte

/-- Unicode White_Space, the set matched by Rust `str::trim` and by the regex
crate's `\s`. -/
def isWsp (c : Char) : Bool :=
  let n := c.toNat
  (9 ≤ n && n ≤ 13) || n == 32 || n == 0x85 || n == 0xA0 || n == 0x1680 ||
    (0x2000 ≤ n && n ≤ 0x200A) || n == 0x2028 || n == 0x2029 || n == 0x202F ||
    n == 0x205F || n == 0x3000

/-- The terminal punctuation group of `WHITESPACE_BEFORE_END_REGEX`,
`(\.|:|\?)`. -/
def isEndPunct (c : Char) : Bool :=
  c == '.' || c == ':' || c == '?'

/-- ASCII digit; models the regex `\d` of `SPACE_BEFORE_PERCENT_SIGN_REGEX`
(the full class is `\p{Nd}`; only ASCII digits occur in this development). -/
def isDigitCh (c : Char) : Bool :=
  48 ≤ c.toNat && c.toNat ≤ 57

/-- `str::trim`: drop leading and trailing whitespace. -/
def trimWs (l : List Char) : List Char :=
  ((l.dropWhile isWsp).reverse.dropWhile isWsp).reverse

theorem dropWhile_length_le {α : Type} (p : α → Bool) (l : List α) :
    (List.dropWhile p l).length ≤ l.length :=
  (List.dropWhile_suffix p).sublist.length_le

/-- Fuel-indexed body of `collapseWs` (structural recursion on the fuel so
that the kernel can evaluate it; the fuel is always sufficient). -/
def collapseWsF : Nat → List Char → List Char
  | 0, l => l
  | _ + 1, [] => []
  | _ + 1, [c] => [c]
  | n + 1, c₁ :: c₂ :: l =>
    if isWsp c₁ && isWsp c₂ then ' ' :: collapseWsF n (l.dropWhile isWsp)
    else c₁ :: collapseWsF n (c₂ :: l)

/-- `WHITESPACE_REGEX.replace_all(text, " ")` with pattern `\s\s+`: every run
of two or more whitespace characters becomes a single space; an isolated
whitespace character is left as it is. -/
def collapseWs (l : List Char) : List Char :=
  collapseWsF l.length l

theorem collapseWsF_congr : ∀ (m n : Nat) (l : List Char), l.length ≤ m →
    l.length ≤ n → collapseWsF m l = collapseWsF n l := by
  intro m
  induction m with
  | zero =>
    intro n l hm _
    have hl : l = [] := List.length_eq_zero.mp (Nat.le_zero.mp hm)
    subst hl
    cases n <;> rfl
  | succ m ih =>
    intro n l hm hn
    cases n with
    | zero =>
      have hl : l = [] := List.length_eq_zero.mp (Nat.le_zero.mp hn)
      subst hl
      rfl
    | succ n =>
      match l with
      | [] => rfl
      | [c] => rfl
      | c₁ :: c₂ :: l =>
        simp only [List.length_cons] at hm hn
        have hd := dropWhile_length_le isWsp l
        simp only [collapseWsF]
        by_cases h : (isWsp c₁ && isWsp c₂) = true
        · rw [if_pos h, if_pos h, ih n (l.dropWhile isWsp) (by omega) (by omega)]
        · rw [if_neg h, if_neg h, ih n (c₂ :: l) (by simp only [List.length_cons]; omega)
            (by simp only [List.length_cons]; omega)]

theorem collapseWs_cons₂ (c₁ c₂ : Char) (l : List Char) :
    collapseWs (c₁ :: c₂ :: l) =
      if isWsp c₁ && isWsp c₂ then ' ' :: collapseWs (l.dropWhile isWsp)
      else c₁ :: collapseWs (c₂ :: l) := by
  have hd := dropWhile_length_le isWsp l
  by_cases h : (isWsp c₁ && isWsp c₂) = true
  · rw [if_pos h]
    simp only [collapseWs, List.length_cons, collapseWsF]
    rw [if_pos h,
      collapseWsF_congr (l.length + 1) (List.dropWhile isWsp l).length
        (List.dropWhile isWsp l) (by omega) (Nat.le_refl _)]
  · rw [if_neg h]
    simp only [collapseWs, List.length_cons, collapseWsF]
    rw [if_neg h]

/-- `WHITESPACE_BEFORE_END_REGEX.replace(text, "$1")` with pattern
`\s(\.|:|\?)$`: drop a whitespace character standing directly before a
terminal `.`, `:` or `?`. -/
def stripWsEndPunct (l : List Char) : List Char :=
  match l.reverse with
  | p :: w :: t => if isEndPunct p && isWsp w then (p :: t).reverse else l
  | _ => l

/-- `DOUBLE_QUOTE_REGEX.replace_all(text, "\"")`: curly double quotes become
straight quotes. -/
def quoteFix (c : Char) : Char :=
  if c == '“' || c == '”' then '"' else c

/-- `SPACE_BEFORE_PERCENT_SIGN_REGEX.replace_all(text, "$1 $2")` with pattern
`(\d)(%)`: insert a space between a digit and a percent sign. -/
def pctSpace : List Char → List Char
  | [] => []
  | [c] => [c]
  | c₁ :: c₂ :: l =>
    if isDigitCh c₁ && c₂ == '%' then c₁ :: ' ' :: '%' :: pctSpace l
    else c₁ :: pctSpace (c₂ :: l)

/-- `sync::helpers::format_text` on the character list. -/
def formatTextChars (l : List Char) : List Char :=
  pctSpace ((stripWsEndPunct (collapseWs (trimWs l))).map quoteFix)

/-- `sync::helpers::format_text`. -/
def format_text (s : String) : String :=
  ⟨formatTextChars s.data⟩

/-- `sync::helpers::remove_end_period` (`END_PERIOD_REGEX`, pattern `\.$`). -/
def remove_end_period (s : String) : String :=
  match s.data.reverse with
  | '.' :: t => ⟨t.reverse⟩
  | _ => s

/-- `u8::make_ascii_uppercase` on a character. -/
def upperAscii (c : Char) : Char :=
  if 97 ≤ c.toNat && c.toNat ≤ 122 then Char.ofNat (c.toNat - 32) else c

/-- `sync::helpers::capitalize_first_char`: `text.get_mut(0..1)` is `Some`
exactly when the string is nonempty and its first character is a single
UTF-8 byte (code point below 0x80); only then is that byte ASCII-uppercased.
The source cannot panic; the embedding is a total function. -/
def capitalize_first_char (s : String) : String :=
  match s.data with
  | [] => s
  | c :: t => if c.toNat < 128 then ⟨upperAscii c :: t⟩ else s

/-! ### Orderings (Rust `Ord` on the involved field types) -/

/-- `Ordering` from a linear order (`if lt then Less else if gt then Greater
else Equal`); used for `Nat` (uuid model), `Int` (date model) and `Char`. -/
def cmpOf {α : Type} [LinearOrder α] (a b : α) : Ordering :=
  if a < b then .lt else if b < a then .gt else .eq

/-- Rust `String`/`str` `Ord`: lexicographic over UTF-8 bytes, equivalently
lexicographic over code points. -/
def cmpChars : List Char → List Char → Ordering
  | [], [] => .eq
  | [], _ :: _ => .lt
  | _ :: _, [] => .gt
  | a :: as, b :: bs =>
    match cmpOf a.toNat b.toNat with
    | .eq => cmpChars as bs
    | o => o

/-- Rust `String` comparison. -/
def strCmp (s₁ s₂ : String) : Ordering :=
  cmpChars s₁.data s₂.data

/-- Rust `Option<T>` `Ord`: `None` is smaller than `Some`. -/
def optCmpWith {α : Type} (cmp : α → α → Ordering) : Option α → Option α → Ordering
  | none, none => .eq
  | none, some _ => .lt
  | some _, none => .gt
  | some a, some b => cmp a b

/-- Sequential composition of comparisons (Rust's nested
`match … { Ordering::Equal => …, ordering => ordering }`). -/
def thenCmp : Ordering → Ordering → Ordering
  | .eq, o => o
  | o, _ => o

/-! ### Generic list operations used by the canonicalizer -/

/-- Stable insertion of `a` into `l` (before the first element `b` with
`cmp a b ≠ Greater`). -/
def insertBy {α : Type} (cmp : α → α → Ordering) (a : α) : List α → List α
  | [] => [a]
  | b :: l => if cmp a b = .gt then b :: insertBy cmp a l else a :: b :: l

/-- Stable sort; models `Vec::sort_by` (Rust's sort is stable, so for any
consistent comparator the result is the same as this insertion sort's). -/
def sortBy {α : Type} (cmp : α → α → Ordering) : List α → List α
  | [] => []
  | a :: l => insertBy cmp a (sortBy cmp l)

/-- Tail of `dedupBy`: `a` is the last kept element; each next element is
dropped when `same next a` holds, else kept and made the new comparand. -/
def dedupByAux {α : Type} (same : α → α → Bool) (a : α) : List α → List α
  | [] => []
  | b :: l => if same b a then dedupByAux same a l else b :: dedupByAux same b l

/-- `Vec::dedup_by(|a, b| same(a, b))`: `same` receives the later element
first and, when it holds, the later element is removed, so the first element
of every run of equivalent elements survives. -/
def dedupBy {α : Type} (same : α → α → Bool) : List α → List α
  | [] => []
  | a :: l => a :: dedupByAux same a l

/-- Replace the first element satisfying `p` (the element found by
`iter_mut().find`). -/
def replaceFirst {α : Type} (p : α → Bool) (x : α) : List α → List α
  | [] => []
  | a :: l => if p a then x :: l else a :: replaceFirst p x l

/-! ### Byte encodings (`traits.rs` `Hashable` impls and the
`medici_macros::Hashable` derive) -/

/-- UTF-8 encoding of one character (`str::as_bytes`). -/
def utf8Bytes (c : Char) : List Byte :=
  let n := c.toNat
  (if n < 0x80 then [n]
  else if n < 0x800 then [0xC0 + n / 64, 0x80 + n % 64]
  else if n < 0x10000 then [0xE0 + n / 4096, 0x80 + (n / 64) % 64, 0x80 + n % 64]
  else [0xF0 + n / 262144, 0x80 + (n / 4096) % 64, 0x80 + (n / 64) % 64, 0x80 + n % 64] :
    List Nat)

/-- UTF-8 bytes of a character list. -/
def charsBytes : List Char → List Byte
  | [] => []
  | c :: t => utf8Bytes c ++ charsBytes t

/-- `impl Hashable for String`: `self.as_bytes()`. -/
def strBytes (s : String) : List Byte :=
  charsBytes s.data

/-- `impl Hashable for Uuid`: the 16 bytes of the id, big-endian (the model
keeps uuids as natural numbers; `Uuid`'s byte order is its `Ord` order). -/
def uuidBytes (n : Nat) : List Byte :=
  (List.range 16).map fun i => n / 256 ^ (15 - i) % 256

/-- `impl Hashable for bool`: `self.to_string().as_bytes()`. -/
def boolBytes (b : Bool) : List Byte :=
  strBytes (if b then "true" else "false")

/-- `impl Hashable for u16`: `self.to_le_bytes()`. -/
def u16LeBytes (n : Nat) : List Byte :=
  [n % 256, n / 256 % 256]

/-- `impl<T> Hashable for Vec<T>`: concatenation of the elements' bytes in
list order. -/
def listBytes {α : Type} (f : α → List Byte) : List α → List Byte
  | [] => []
  | a :: t => f a ++ listBytes f t

/-- `str::trim` on a string. -/
def trimString (s : String) : String :=
  ⟨trimWs s.data⟩

/-! ### `sync/` data model (current generation) -/

/-- `sync/question_source_data.rs` `QuestionSourceType`; `Ord` derives from
declaration order.  The second variant is `Partial` in the source (renamed
here). -/
inductive QuestionSourceType where
  | Exam
  | Partial_
  | SelfAssessment
  | Other
deriving DecidableEq

/-- Declaration index of a `QuestionSourceType` (its derived `Ord` key). -/
def QuestionSourceType.idx : QuestionSourceType → Nat
  | .Exam => 0
  | .Partial_ => 1
  | .SelfAssessment => 2
  | .Other => 3

/-- `strum::Display` with `serialize_all = "snake_case"`. -/
def QuestionSourceType.display : QuestionSourceType → String
  | .Exam => "exam"
  | .Partial_ => "partial"
  | .SelfAssessment => "self_assessment"
  | .Other => "other"

/-- `chrono::NaiveDate::to_string` ("YYYY-MM-DD"); the model keeps dates as
integers, rendered via `toString` (injective, as the source's rendering). -/
def dateToString (d : Int) : String :=
  toString d

/-- `sync/question_source_data.rs` `QuestionSourceData`. -/
structure QuestionSourceData where
  course_key : String
  type : QuestionSourceType
  name : Option String
  date : Option Int
  variant : Option String
deriving DecidableEq

/-- `QuestionSourceData::key`. -/
def QuestionSourceData.key (s : QuestionSourceData) : String :=
  s.course_key ++ "::" ++ s.type.display ++ "::" ++ s.name.getD "!" ++ "::" ++
    (match s.date with
      | some d => dateToString d
      | none => "!") ++ "::" ++ s.variant.getD "!"

/-- `sync/question_topic_data.rs` `QuestionTopicData`. -/
structure QuestionTopicData where
  course_key : String
  name : String
deriving DecidableEq

/-- `QuestionTopicData::key`. -/
def QuestionTopicData.key (t : QuestionTopicData) : String :=
  t.course_key ++ "::" ++ t.name

/-- `sync/explanation_data.rs` `ExplanationData` (`by` renamed to `by_`;
`DateTime<Utc>` modelled as an integer). -/
structure ExplanationData where
  text : String
  by_ : String
  date : Int
  hash : List Byte
deriving DecidableEq

/-- `ExplanationData`'s hashable bytes: text, author, RFC 3339 date
(rendered via `toString` in the model). -/
def ExplanationData.to_bytes (e : ExplanationData) : List Byte :=
  strBytes e.text ++ strBytes e.by_ ++ strBytes (toString e.date)

/-- `sync/question_option_data.rs` `QuestionOptionData` (uuids as `Nat`,
`u16` reference as `Nat`, the stored hex fingerprint as `List Byte`). -/
structure QuestionOptionData where
  id : Nat
  question_id : Nat
  text : String
  correct : Bool
  reference : Nat
  preserve_case : Bool
  hash : List Byte
deriving DecidableEq

/-- The `medici_macros::Hashable` derive for `QuestionOptionData`: for every
included field it emits the stringified field path (`stringify!(self.field)`)
followed by the field's `Hashable::to_bytes`.  Its field filter drops a field
iff it is the hash field *and* lacks a `skip_hash` marker, so only `hash` is
dropped here: `reference` and `preserve_case` carry `#[medici(skip_hash)]`
but are not the hash field and therefore still contribute. -/
def QuestionOptionData.to_bytes (o : QuestionOptionData) : List Byte :=
  strBytes "self.id" ++ uuidBytes o.id ++
  strBytes "self.question_id" ++ uuidBytes o.question_id ++
  strBytes "self.text" ++ strBytes o.text ++
  strBytes "self.correct" ++ boolBytes o.correct ++
  strBytes "self.reference" ++ u16LeBytes o.reference ++
  strBytes "self.preserve_case" ++ boolBytes o.preserve_case

/-- `QuestionOptionData::is_blank`. -/
def QuestionOptionData.is_blank (o : QuestionOptionData) : Bool :=
  o.text.isEmpty

/-- `QuestionOptionData::eq_data` (note: it compares the `question_id`
back-reference in addition to text and correctness). -/
def QuestionOptionData.eq_data (a b : QuestionOptionData) : Bool :=
  decide (a.question_id = b.question_id) && decide (a.text = b.text) &&
    decide (a.correct = b.correct)

/-- `QuestionOptionData::ensure_text_ends_with_period`. -/
def ensurePeriod (t : String) : String :=
  if t.data.getLast? = some '.' then t else ⟨t.data ++ ['.']⟩

/-- The text pipeline of `QuestionOptionData::format`: format, append the
terminal period when nonempty, capitalize unless `preserve_case`. -/
def formatOptionText (pc : Bool) (s : String) : String :=
  let t := format_text s
  let t := if t.isEmpty then t else ensurePeriod t
  if pc then t else capitalize_first_char t

/-- `QuestionOptionData::format`. -/
def QuestionOptionData.format (o : QuestionOptionData) : QuestionOptionData :=
  { o with text := formatOptionText o.preserve_case o.text }

/-- `QuestionOptionData::check` (vacuous in the source). -/
def QuestionOptionData.check (_o : QuestionOptionData) : Except String Unit :=
  .ok ()

/-- `Hashable::refresh_hash` for an option. -/
def QuestionOptionData.refresh_hash (d : Digest) (o : QuestionOptionData) :
    QuestionOptionData :=
  { o with hash := d o.to_bytes }

/-- `QuestionOptionData::process`. -/
def QuestionOptionData.process (d : Digest) (o : QuestionOptionData) :
    Except String QuestionOptionData :=
  let o := o.format
  match o.check with
  | .error e => .error e
  | .ok _ => .ok (o.refresh_hash d)

/-- `sync/question_data.rs` `QuestionData`. -/
structure QuestionData where
  id : Nat
  course_key : String
  source : QuestionSourceData
  text : String
  explanation : Option ExplanationData
  topic : QuestionTopicData
  topic_by : Option String
  tags : List String
  image_file_name : Option String
  question_options : List QuestionOptionData
  hash : List Byte
deriving DecidableEq

/-- The `medici_macros::Hashable` derive for `QuestionData` (every field but
`hash`, tagged with its stringified path). -/
def QuestionData.to_bytes (q : QuestionData) : List Byte :=
  strBytes "self.id" ++ uuidBytes q.id ++
  strBytes "self.course_key" ++ strBytes q.course_key ++
  strBytes "self.source" ++ strBytes q.source.key ++
  strBytes "self.text" ++ strBytes q.text ++
  strBytes "self.explanation" ++ (q.explanation.map ExplanationData.to_bytes).getD [] ++
  strBytes "self.topic" ++ strBytes q.topic.key ++
  strBytes "self.topic_by" ++ (q.topic_by.map strBytes).getD [] ++
  strBytes "self.tags" ++ listBytes strBytes q.tags ++
  strBytes "self.image_file_name" ++ (q.image_file_name.map strBytes).getD [] ++
  strBytes "self.question_options" ++ listBytes QuestionOptionData.to_bytes q.question_options

/-- `QuestionData::is_blank`. -/
def QuestionData.is_blank (q : QuestionData) : Bool :=
  q.text.isEmpty && q.question_options.isEmpty

/-- The option comparator of `QuestionData::sort` (the source reads the
correctness flag as `is_correct`; the struct field is `correct`):
a correct `a` is `Less`, otherwise a correct `b` makes it `Greater`,
otherwise lexicographic by text. -/
def questionOptionCmp (a b : QuestionOptionData) : Ordering :=
  if a.correct then .lt else if b.correct then .gt else strCmp a.text b.text

/-- `QuestionData::sort`. -/
def QuestionData.sortQ (q : QuestionData) : QuestionData :=
  { q with question_options := sortBy questionOptionCmp q.question_options }

/-- `QuestionData::deduplicate`. -/
def QuestionData.deduplicate (q : QuestionData) : QuestionData :=
  { q with question_options := dedupBy QuestionOptionData.eq_data q.question_options }

/-- `QuestionData::remove_blank_options`. -/
def QuestionData.remove_blank_options (q : QuestionData) : QuestionData :=
  { q with question_options := q.question_options.filter (fun o => !o.is_blank) }

/-- `QuestionData::eq_data`. -/
def QuestionData.eq_data (a b : QuestionData) : Bool :=
  decide (a.text = b.text) && decide (a.source = b.source) &&
    decide (a.question_options.length = b.question_options.length) &&
    a.question_options.all fun x => b.question_options.any fun y => x.eq_data y

/-- `QuestionData::check_question_option_count`. -/
def QuestionData.check_question_option_count (q : QuestionData) : Except String Unit :=
  if !q.is_blank && (q.question_options.length < 2 || q.question_options.length > 5) then
    .error ("question with ID " ++ toString q.id ++ " has " ++
      toString q.question_options.length ++ " option(s)")
  else .ok ()

/-- `QuestionData::check_duplicates_in_question_options` (the `HashSet` of
texts has fewer elements than the option list iff two texts coincide). -/
def QuestionData.check_duplicates_in_question_options (q : QuestionData) :
    Except String Unit :=
  if (q.question_options.map QuestionOptionData.text).Nodup then .ok ()
  else .error "duplicate question option"

/-- `QuestionData::check_correct_count`. -/
def QuestionData.check_correct_count (q : QuestionData) : Except String Unit :=
  let correct_count := q.question_options.countP (fun o => o.correct)
  if !q.is_blank && correct_count ≠ 1 then
    .error ("question with ID " ++ toString q.id ++ " has " ++
      toString correct_count ++ " correct options")
  else .ok ()

/-- `QuestionData::check`. -/
def QuestionData.check (q : QuestionData) : Except String Unit :=
  match q.check_question_option_count with
  | .error e => .error e
  | .ok _ =>
    match q.check_duplicates_in_question_options with
    | .error e => .error e
    | .ok _ => q.check_correct_count

/-- `QuestionData::format` (text plus tag trimming/filtering; options are not
formatted here — they are processed individually on construction). -/
def QuestionData.format (q : QuestionData) : QuestionData :=
  { q with
    text := format_text q.text
    tags := (q.tags.map trimString).filter (fun t => !t.isEmpty) }

/-- `Hashable::refresh_hash` for a question. -/
def QuestionData.refresh_hash (d : Digest) (q : QuestionData) : QuestionData :=
  { q with hash := d q.to_bytes }

/-- `QuestionData::process`. -/
def QuestionData.process (d : Digest) (q : QuestionData) : Except String QuestionData :=
  let q := q.remove_blank_options
  let q := q.format
  let q := q.sortQ
  let q := q.deduplicate
  match q.check with
  | .error e => .error e
  | .ok _ => .ok (q.refresh_hash d)

/-- `sync/course_data.rs` `CourseData` (`Decimal` price as `Int`,
`PathBuf` as `String`, `u16` year/order as `Nat`). -/
structure CourseData where
  key : String
  name : String
  short_name : String
  description : Option String
  price_in_uyu : Int
  tags : List String
  image_file_name : String
  year : Option Nat
  order : Option Nat
  questions : List QuestionData
  valid_topics : List String
  hash : List Byte
deriving DecidableEq

/-- The `medici_macros::Hashable` derive for `CourseData` (every field but
`hash`; `Decimal::to_bytes` is its decimal string). -/
def CourseData.to_bytes (c : CourseData) : List Byte :=
  strBytes "self.key" ++ strBytes c.key ++
  strBytes "self.name" ++ strBytes c.name ++
  strBytes "self.short_name" ++ strBytes c.short_name ++
  strBytes "self.description" ++ (c.description.map strBytes).getD [] ++
  strBytes "self.price_in_uyu" ++ strBytes (toString c.price_in_uyu) ++
  strBytes "self.tags" ++ listBytes strBytes c.tags ++
  strBytes "self.image_file_name" ++ strBytes c.image_file_name ++
  strBytes "self.year" ++ (c.year.map u16LeBytes).getD [] ++
  strBytes "self.order" ++ (c.order.map u16LeBytes).getD [] ++
  strBytes "self.questions" ++ listBytes QuestionData.to_bytes c.questions ++
  strBytes "self.valid_topics" ++ listBytes strBytes c.valid_topics

/-- The question comparator of `CourseData::sort`: source type, then source
date, then text, then id. -/
def questionCmp (a b : QuestionData) : Ordering :=
  thenCmp (cmpOf a.source.type.idx b.source.type.idx)
    (thenCmp (optCmpWith cmpOf a.source.date b.source.date)
      (thenCmp (strCmp a.text b.text) (cmpOf a.id b.id)))

/-- `CourseData::sort`. -/
def CourseData.sortQ (c : CourseData) : CourseData :=
  { c with questions := sortBy questionCmp c.questions }

/-- `CourseData::remove_blank_questions`. -/
def CourseData.remove_blank_questions (c : CourseData) : CourseData :=
  { c with questions := c.questions.filter (fun q => !q.is_blank) }

/-- `CourseData::deduplicate`. -/
def CourseData.deduplicate (c : CourseData) : CourseData :=
  { c with questions := dedupBy QuestionData.eq_data c.questions }

/-- `CourseData::check`. -/
def CourseData.check (c : CourseData) : Except String Unit :=
  if c.key.isEmpty || c.name.isEmpty || c.short_name.isEmpty then
    .error ("invalid course with key " ++ c.key)
  else if c.price_in_uyu < 0 then .error "invalid course price"
  else .ok ()

/-- `CourseData::format`. -/
def CourseData.format (c : CourseData) : CourseData :=
  { c with
    name := trimString c.name
    short_name := trimString c.short_name
    description := c.description.map trimString
    tags := c.tags.map trimString }

/-- `Hashable::refresh_hash` for a course. -/
def CourseData.refresh_hash (d : Digest) (c : CourseData) : CourseData :=
  { c with hash := d c.to_bytes }

/-- `CourseData::process`. -/
def CourseData.process (d : Digest) (c : CourseData) : Except String CourseData :=
  let c := c.remove_blank_questions
  let c := c.format
  let c := c.sortQ
  let c := c.deduplicate
  match c.check with
  | .error e => .error e
  | .ok _ => .ok (c.refresh_hash d)

/-- `CourseData::replace_question`: the first question with the
replacement's id is substituted and the course reprocessed; `none` models
the `expect("question to replace not found")` panic. -/
def CourseData.replace_question (d : Digest) (c : CourseData) (nq : QuestionData) :
    Option (Except String CourseData) :=
  if c.questions.any (fun q => decide (q.id = nq.id)) then
    some (CourseData.process d { c with
      questions := replaceFirst (fun q => decide (q.id = nq.id)) nq c.questions })
  else none

/-! ### Claim C8: text canonicalization example -/

/-- Claim C8: the option text `"  option  1 "` formats to `"Option 1."` with
`preserve_case = false` (trim, collapse whitespace, terminal period, ASCII
capitalization) and to `"option 1."` with `preserve_case = true`. -/
theorem C8_text_canonicalization_example :
    (QuestionOptionData.format
      { id := 0, question_id := 0, text := "  option  1 ", correct := false,
        reference := 0, preserve_case := false, hash := [] }).text = "Option 1." ∧
    (QuestionOptionData.format
      { id := 0, question_id := 0, text := "  option  1 ", correct := false,
        reference := 0, preserve_case := true, hash := [] }).text = "option 1." := by
  constructor <;> rfl

/-! ### Claim C2: which fields contribute to the option fingerprint -/

/-- Claim C2 (refuted; the code contradicts the evident intent of
`#[medici(skip_hash)]`): `derive_hashable`'s field filter drops a field iff
it is the hash field and lacks a `skip_hash` marker, so `reference` and
`preserve_case` — though marked `#[medici(skip_hash)]` — still contribute to
`QuestionOptionData`'s canonical bytes, while the `hash` field itself is
correctly excluded: two options differing only in `reference` (or only in
`preserve_case`) get different encodings, whereas differing only in `hash`
leaves the encoding unchanged. -/
theorem C2_skip_hash_fields_still_contribute :
    QuestionOptionData.to_bytes
        { id := 7, question_id := 9, text := "A.", correct := true,
          reference := 0, preserve_case := false, hash := [] } ≠
      QuestionOptionData.to_bytes
        { id := 7, question_id := 9, text := "A.", correct := true,
          reference := 1, preserve_case := false, hash := [] } ∧
    QuestionOptionData.to_bytes
        { id := 7, question_id := 9, text := "A.", correct := true,
          reference := 0, preserve_case := false, hash := [] } ≠
      QuestionOptionData.to_bytes
        { id := 7, question_id := 9, text := "A.", correct := true,
          reference := 0, preserve_case := true, hash := [] } ∧
    QuestionOptionData.to_bytes
        { id := 7, question_id := 9, text := "A.", correct := true,
          reference := 0, preserve_case := false, hash := [] } =
      QuestionOptionData.to_bytes
        { id := 7, question_id := 9, text := "A.", correct := true,
          reference := 0, preserve_case := false, hash := [3, 1, 4] } := by
  refine ⟨by decide, by decide, rfl⟩

/-! ### Claim C4: the validation boundary -/

theorem exists_error_iff_ne_ok (x : Except String Unit) :
    (∃ e, x = .error e) ↔ x ≠ .ok () := by
  cases x with
  | error e => exact ⟨fun _ => by simp, fun _ => ⟨e, rfl⟩⟩
  | ok u => cases u; simp

theorem two_le_length_of_not_nodup_map {α β : Type} (f : α → β) :
    ∀ l : List α, ¬ (l.map f).Nodup → 2 ≤ l.length
  | [], h => absurd (by simp) h
  | [_], h => absurd (by simp) h
  | _ :: _ :: _, _ => by simp only [List.length_cons]; omega

/-- Claim C4: after canonicalization steps, `QuestionData::check` errors iff
the question is non-blank and (its option count is outside 2..=5, or two
options share a text, or the correct count differs from 1); a blank question
passes.  Concretely: blank passes, 1 option fails, 2 options with one
correct pass, 2 correct among 3 fail, 6 options fail. -/
theorem C4_validation_boundary :
    (∀ q : QuestionData,
      (∃ e, QuestionData.check q = .error e) ↔
        (q.is_blank = false ∧
          (q.question_options.length < 2 ∨ 5 < q.question_options.length ∨
            ¬ (q.question_options.map QuestionOptionData.text).Nodup ∨
            q.question_options.countP (fun o => o.correct) ≠ 1))) ∧
    QuestionData.check
      { id := 0, course_key := "c", source := ⟨"c", .Exam, none, some 0, none⟩,
        text := "", explanation := none, topic := ⟨"c", "t"⟩, topic_by := none,
        tags := [], image_file_name := none, question_options := [], hash := [] } = .ok () ∧
    (∃ e, QuestionData.check
      { id := 1, course_key := "c", source := ⟨"c", .Exam, none, some 0, none⟩,
        text := "Q.", explanation := none, topic := ⟨"c", "t"⟩, topic_by := none,
        tags := [], image_file_name := none,
        question_options := [⟨10, 1, "A.", true, 0, false, []⟩], hash := [] } = .error e) ∧
    QuestionData.check
      { id := 2, course_key := "c", source := ⟨"c", .Exam, none, some 0, none⟩,
        text := "Q.", explanation := none, topic := ⟨"c", "t"⟩, topic_by := none,
        tags := [], image_file_name := none,
        question_options := [⟨10, 2, "A.", true, 0, false, []⟩,
          ⟨11, 2, "B.", false, 1, false, []⟩], hash := [] } = .ok () ∧
    (∃ e, QuestionData.check
      { id := 3, course_key := "c", source := ⟨"c", .Exam, none, some 0, none⟩,
        text := "Q.", explanation := none, topic := ⟨"c", "t"⟩, topic_by := none,
        tags := [], image_file_name := none,
        question_options := [⟨10, 3, "A.", true, 0, false, []⟩,
          ⟨11, 3, "B.", true, 1, false, []⟩,
          ⟨12, 3, "C.", false, 2, false, []⟩], hash := [] } = .error e) ∧
    (∃ e, QuestionData.check
      { id := 4, course_key := "c", source := ⟨"c", .Exam, none, some 0, none⟩,
        text := "Q.", explanation := none, topic := ⟨"c", "t"⟩, topic_by := none,
        tags := [], image_file_name := none,
        question_options := [⟨10, 4, "A.", true, 0, false, []⟩,
          ⟨11, 4, "B.", false, 1, false, []⟩,
          ⟨12, 4, "C.", false, 2, false, []⟩,
          ⟨13, 4, "D.", false, 3, false, []⟩,
          ⟨14, 4, "E.", false, 4, false, []⟩,
          ⟨15, 4, "F.", false, 5, false, []⟩], hash := [] } = .error e) := by
  refine ⟨?_, rfl, ⟨_, rfl⟩, rfl, ⟨_, rfl⟩, ⟨_, rfl⟩⟩
  intro q
  rw [exists_error_iff_ne_ok]
  simp only [QuestionData.check, QuestionData.check_question_option_count,
    QuestionData.check_duplicates_in_question_options, QuestionData.check_correct_count]
  by_cases hb : q.is_blank
  · have hopts : q.question_options = [] := by
      have h1 := hb
      simp only [QuestionData.is_blank, Bool.and_eq_true, String.isEmpty_iff,
        List.isEmpty_iff] at h1
      exact h1.2
    simp [hb, hopts]
  · have hb' : q.is_blank = false := by simp_all
    by_cases hcount : q.question_options.length < 2 ∨ 5 < q.question_options.length
    · have hA : (!q.is_blank && (decide (q.question_options.length < 2) ||
          decide (q.question_options.length > 5))) = true := by
        simp only [hb', Bool.not_false, Bool.true_and, Bool.or_eq_true, decide_eq_true_eq]
        omega
      simp only [hA, if_true]
      simp only [hb', true_and]
      constructor
      · intro _
        rcases hcount with h | h
        · exact Or.inl h
        · exact Or.inr (Or.inl h)
      · intro _
        simp
    · have hA : (!q.is_blank && (decide (q.question_options.length < 2) ||
          decide (q.question_options.length > 5))) = false := by
        simp only [Bool.and_eq_false_iff, Bool.or_eq_false_iff, decide_eq_false_iff_not]
        right
        constructor <;> omega
      simp only [hA, Bool.false_eq_true, if_false]
      by_cases hnd : (q.question_options.map QuestionOptionData.text).Nodup
      · simp only [hnd, if_true]
        by_cases hcc : q.question_options.countP (fun o => o.correct) = 1
        · have hC : (!q.is_blank && !decide
              (q.question_options.countP (fun o => o.correct) = 1)) = false := by
            simp [hcc]
          simp only [ne_eq, decide_not, hC, Bool.false_eq_true, if_false]
          simp [hb', hnd, hcc]
          omega
        · have hC : (!q.is_blank && !decide
              (q.question_options.countP (fun o => o.correct) = 1)) = true := by
            simp [hb', hcc]
          simp only [ne_eq, decide_not, hC, if_true]
          simp [hb', hcc]
      · simp only [hnd, if_false]
        simp [hb', hnd]

/-! ### Claim C10: totality of `capitalize_first_char` at the UTF-8 boundary -/

theorem upperAscii_eq_toUpper (c : Char) : upperAscii c = Char.toUpper c := by
  simp only [upperAscii, Char.toUpper, Bool.and_eq_true, decide_eq_true_eq]

/-- Claim C10: `capitalize_first_char` is total (no panic): it ASCII-uppercases
the first character exactly when that character is a single UTF-8 byte
(code point < 128) and returns the string unchanged when the first character
is multi-byte, so non-ASCII option text keeps its case even with
`preserve_case = false`. -/
theorem C10_capitalize_first_char_totality :
    (∀ (s : String) (c : Char) (t : List Char), s.data = c :: t →
      (c.toNat < 128 → capitalize_first_char s = ⟨Char.toUpper c :: t⟩) ∧
      (128 ≤ c.toNat → capitalize_first_char s = s)) ∧
    capitalize_first_char "" = "" ∧
    (QuestionOptionData.format
      { id := 0, question_id := 0, text := "ñandú  1", correct := false,
        reference := 0, preserve_case := false, hash := [] }).text = "ñandú 1." := by
  refine ⟨?_, rfl, rfl⟩
  intro s c t h
  constructor
  · intro hlt
    simp only [capitalize_first_char, h, if_pos hlt, upperAscii_eq_toUpper]
  · intro hge
    simp only [capitalize_first_char, h]
    rw [if_neg (by omega)]

/-- Witness for C10 at concrete inputs: an ASCII-initial string is
capitalized, a multi-byte-initial string is untouched. -/
theorem C10_witness :
    capitalize_first_char "abc" = "Abc" ∧ capitalize_first_char "ñx" = "ñx" := by
  constructor
  · have h := (C10_capitalize_first_char_totality.1 "abc" 'a' ['b', 'c'] rfl).1
      (by decide)
    rw [h]
    decide
  · exact (C10_capitalize_first_char_totality.1 "ñx" 'ñ' ['x'] rfl).2 (by decide)

/-! ### Claim C5: the Sync Diff Engine -/

/-- `sync/types.rs` `ElementSyncData`, restricted to keys (`for_sync` holds
full entities in the source; only their keys matter to the diff). -/
structure ElementSyncData (K : Type) where
  for_sync : List K
  for_deletion : List K
deriving DecidableEq

/-- Association-list lookup (the model of the `HashMap` key→fingerprint
mappings in `SyncMetadata`). -/
def alookup {K : Type} [DecidableEq K] (k : K) : List (K × String) → Option String
  | [] => none
  | (k', v) :: t => if k' = k then some v else alookup k t

/-- Modelled from the spec: the Sync Diff Engine's per-collection algorithm
(spec §4.4); `src/` declares only the result and metadata shapes
(`ElementSyncData`, `SyncMetadata`), the computation itself lives in
consumers of this library.  An entity goes to `for_sync` iff its key is
absent from the previous metadata or present with a different fingerprint; a
previous key absent from the current mapping goes to `for_deletion`. -/
def computeSyncData {K : Type} [DecidableEq K]
    (current previous : List (K × String)) : ElementSyncData K :=
  { for_sync := (current.filter fun kv =>
      match alookup kv.1 previous with
      | none => true
      | some h => decide (h ≠ kv.2)).map Prod.fst
    for_deletion := (previous.filter fun kv =>
      (alookup kv.1 current).isNone).map Prod.fst }

theorem mem_map_fst_filter {K : Type} [DecidableEq K] (p : K × String → Bool) :
    ∀ l : List (K × String), (l.map Prod.fst).Nodup → ∀ k : K,
      (k ∈ (l.filter p).map Prod.fst ↔ ∃ v, alookup k l = some v ∧ p (k, v)) := by
  intro l
  induction l with
  | nil => intro _ k; simp [alookup]
  | cons kv t ih =>
    intro hn k
    obtain ⟨k', v'⟩ := kv
    simp only [List.map_cons, List.nodup_cons] at hn
    by_cases hk : k' = k
    · subst hk
      simp only [alookup, if_pos rfl]
      by_cases hp : p (k', v') = true
      · simp [List.filter_cons, hp]
      · rw [List.filter_cons, if_neg (by simp [hp])]
        constructor
        · intro hmem
          exact absurd (((List.filter_sublist t).map Prod.fst).subset hmem) hn.1
        · rintro ⟨v, hv, hpv⟩
          cases hv
          exact absurd hpv hp
    · rw [alookup, if_neg hk, List.filter_cons]
      by_cases hp : p (k', v') = true
      · rw [if_pos hp]
        simp only [List.map_cons, List.mem_cons]
        rw [ih hn.2 k]
        constructor
        · rintro (h | h)
          · exact absurd h.symm hk
          · exact h
        · exact Or.inr
      · rw [if_neg (by simp [hp])]
        exact ih hn.2 k

/-- Claim C5: the Sync Diff Engine (modelled from the spec) puts a key in
`for_sync` iff it is current and absent-or-changed in the previous metadata,
puts a key in `for_deletion` iff it is previous but not current, and on
current `{a: h1, b: h2}` vs previous `{a: h1, c: h3}` yields
`for_sync = {b}`, `for_deletion = {c}` with `a` in neither. -/
theorem C5_sync_diff_correctness :
    (∀ (K : Type) (inst : DecidableEq K) (current previous : List (K × String)) (k : K),
      ((current.map Prod.fst).Nodup →
        (k ∈ (computeSyncData current previous).for_sync ↔
          ∃ h, alookup k current = some h ∧ alookup k previous ≠ some h)) ∧
      ((previous.map Prod.fst).Nodup →
        (k ∈ (computeSyncData current previous).for_deletion ↔
          (∃ h, alookup k previous = some h) ∧ alookup k current = none))) ∧
    computeSyncData [("a", "h1"), ("b", "h2")] [("a", "h1"), ("c", "h3")] =
      ⟨["b"], ["c"]⟩ := by
  refine ⟨?_, by decide⟩
  intro K inst current previous k
  constructor
  · intro hn
    rw [computeSyncData]
    rw [mem_map_fst_filter _ current hn k]
    constructor
    · rintro ⟨v, hv, hpv⟩
      refine ⟨v, hv, fun heq => ?_⟩
      rw [heq] at hpv
      simp at hpv
    · rintro ⟨h, hcur, hprev⟩
      refine ⟨h, hcur, ?_⟩
      cases halt : alookup k previous with
      | none => rfl
      | some h' =>
        simp only [decide_eq_true_eq, ne_eq]
        intro heq
        subst heq
        exact hprev halt
  · intro hn
    rw [computeSyncData]
    rw [mem_map_fst_filter _ previous hn k]
    constructor
    · rintro ⟨v, hv, hpv⟩
      simp only [Option.isNone_iff_eq_none] at hpv
      exact ⟨⟨v, hv⟩, hpv⟩
    · rintro ⟨⟨v, hv⟩, hcur⟩
      exact ⟨v, hv, by simp [hcur]⟩

/-- Witness for C5: the characterization applied at the concrete instance of
the claim. -/
theorem C5_witness :
    "b" ∈ (computeSyncData [("a", "h1"), ("b", "h2")]
      [("a", "h1"), ("c", "h3")]).for_sync ∧
    "c" ∈ (computeSyncData [("a", "h1"), ("b", "h2")]
      [("a", "h1"), ("c", "h3")]).for_deletion ∧
    "a" ∉ (computeSyncData [("a", "h1"), ("b", "h2")]
      [("a", "h1"), ("c", "h3")]).for_sync := by
  refine ⟨?_, ?_, ?_⟩
  · exact ((C5_sync_diff_correctness.1 String inferInstance
      [("a", "h1"), ("b", "h2")] [("a", "h1"), ("c", "h3")] "b").1 (by decide)).mpr
      ⟨"h2", by decide, by decide⟩
  · exact ((C5_sync_diff_correctness.1 String inferInstance
      [("a", "h1"), ("b", "h2")] [("a", "h1"), ("c", "h3")] "c").2 (by decide)).mpr
      ⟨⟨"h3", by decide⟩, by decide⟩
  · intro hmem
    have h := ((C5_sync_diff_correctness.1 String inferInstance
      [("a", "h1"), ("b", "h2")] [("a", "h1"), ("c", "h3")] "a").1 (by decide)).mp hmem
    obtain ⟨v, hv, hne⟩ := h
    cases hv
    exact hne (by decide)

/-- Witness for C4: the error characterization applied to a concrete
six-option question. -/
theorem C4_witness :
    ∃ e, QuestionData.check
      { id := 40, course_key := "c", source := ⟨"c", .Exam, none, some 0, none⟩,
        text := "Q.", explanation := none, topic := ⟨"c", "t"⟩, topic_by := none,
        tags := [], image_file_name := none,
        question_options := [⟨20, 40, "A.", true, 0, false, []⟩,
          ⟨21, 40, "B.", false, 1, false, []⟩,
          ⟨22, 40, "C.", false, 2, false, []⟩,
          ⟨23, 40, "D.", false, 3, false, []⟩,
          ⟨24, 40, "E.", false, 4, false, []⟩,
          ⟨25, 40, "F.", false, 5, false, []⟩], hash := [] } = .error e :=
  (C4_validation_boundary.1 _).mpr ⟨rfl, Or.inr (Or.inl (by decide))⟩

/-! ### Generic facts about `sortBy` and comparator-based determinism -/

theorem mem_insertBy {α : Type} (cmp : α → α → Ordering) (a x : α) :
    ∀ l : List α, x ∈ insertBy cmp a l ↔ x = a ∨ x ∈ l := by
  intro l
  induction l with
  | nil => simp [insertBy]
  | cons b t ih =>
    rw [insertBy]
    by_cases h : cmp a b = .gt
    · rw [if_pos h]
      simp only [List.mem_cons, ih]
      tauto
    · rw [if_neg h]
      simp [List.mem_cons]

theorem insertBy_perm {α : Type} (cmp : α → α → Ordering) (a : α) :
    ∀ l : List α, (insertBy cmp a l).Perm (a :: l) := by
  intro l
  induction l with
  | nil => rw [insertBy]
  | cons b t ih =>
    rw [insertBy]
    by_cases h : cmp a b = .gt
    · rw [if_pos h]
      exact (ih.cons b).trans (List.Perm.swap a b t)
    · rw [if_neg h]

theorem sortBy_perm {α : Type} (cmp : α → α → Ordering) :
    ∀ l : List α, (sortBy cmp l).Perm l := by
  intro l
  induction l with
  | nil => rw [sortBy]
  | cons a t ih =>
    rw [sortBy]
    exact (insertBy_perm cmp a (sortBy cmp t)).trans (ih.cons a)

theorem insertBy_pairwise {α : Type} (cmp : α → α → Ordering)
    (hasym : ∀ a b, cmp a b = .gt → ¬ cmp b a = .gt)
    (htrans : ∀ a b c, ¬ cmp a b = .gt → ¬ cmp b c = .gt → ¬ cmp a c = .gt)
    (a : α) : ∀ l : List α, l.Pairwise (fun x y => ¬ cmp x y = .gt) →
      (insertBy cmp a l).Pairwise (fun x y => ¬ cmp x y = .gt) := by
  intro l
  induction l with
  | nil => intro _; simp [insertBy]
  | cons b t ih =>
    intro hs
    rw [List.pairwise_cons] at hs
    rw [insertBy]
    by_cases h : cmp a b = .gt
    · rw [if_pos h, List.pairwise_cons]
      refine ⟨?_, ih hs.2⟩
      intro x hx
      rcases (mem_insertBy cmp a x t).mp hx with hxa | hxt
      · rw [hxa]
        exact hasym a b h
      · exact hs.1 x hxt
    · rw [if_neg h, List.pairwise_cons]
      refine ⟨?_, List.pairwise_cons.mpr hs⟩
      intro x hx
      rcases List.mem_cons.mp hx with hxb | hxt
      · subst hxb
        exact h
      · exact htrans a b x h (hs.1 x hxt)

theorem sortBy_pairwise {α : Type} (cmp : α → α → Ordering)
    (hasym : ∀ a b, cmp a b = .gt → ¬ cmp b a = .gt)
    (htrans : ∀ a b c, ¬ cmp a b = .gt → ¬ cmp b c = .gt → ¬ cmp a c = .gt) :
    ∀ l : List α, (sortBy cmp l).Pairwise (fun x y => ¬ cmp x y = .gt) := by
  intro l
  induction l with
  | nil => rw [sortBy]; exact List.Pairwise.nil
  | cons a t ih =>
    rw [sortBy]
    exact insertBy_pairwise cmp hasym htrans a _ ih

theorem sortBy_eq_of_pairwise {α : Type} (cmp : α → α → Ordering) :
    ∀ l : List α, l.Pairwise (fun x y => ¬ cmp x y = .gt) → sortBy cmp l = l := by
  intro l
  induction l with
  | nil => intro _; rfl
  | cons a t ih =>
    intro hs
    rw [List.pairwise_cons] at hs
    rw [sortBy, ih hs.2]
    cases t with
    | nil => rfl
    | cons b t' =>
      rw [insertBy, if_neg (hs.1 b (List.mem_cons_self b t'))]

theorem eq_of_perm_of_pairwise {α : Type} {le : α → α → Prop} :
    ∀ l₁ l₂ : List α, l₁.Perm l₂ → l₁.Pairwise le → l₂.Pairwise le →
      (∀ a b, a ∈ l₁ → b ∈ l₁ → le a b → le b a → a = b) → l₁ = l₂ := by
  intro l₁
  induction l₁ with
  | nil =>
    intro l₂ hp _ _ _
    exact (hp.symm.eq_nil).symm
  | cons a t ih =>
    intro l₂ hp hs₁ hs₂ hanti
    cases l₂ with
    | nil => exact absurd hp.eq_nil (by simp)
    | cons b t₂ =>
      by_cases hab : a = b
      · subst hab
        have ht : t.Perm t₂ := hp.cons_inv
        have := ih t₂ ht hs₁.of_cons hs₂.of_cons fun x y hx hy =>
          hanti x y (List.mem_cons_of_mem a hx) (List.mem_cons_of_mem a hy)
        rw [this]
      · exfalso
        have ha2 : a ∈ t₂ := by
          have := hp.subset (List.mem_cons_self a t)
          rcases List.mem_cons.mp this with h | h
          · exact absurd h hab
          · exact h
        have hb1 : b ∈ t := by
          have := hp.symm.subset (List.mem_cons_self b t₂)
          rcases List.mem_cons.mp this with h | h
          · exact absurd h.symm hab
          · exact h
        have hle1 : le a b := (List.pairwise_cons.mp hs₁).1 b hb1
        have hle2 : le b a := (List.pairwise_cons.mp hs₂).1 a ha2
        exact hab (hanti a b (List.mem_cons_self a t) (List.mem_cons_of_mem a hb1)
          hle1 hle2)

/-- Determinism of a stable sort across permuted inputs, given asymmetry and
transitivity of the comparator's "not greater" relation globally, and
antisymmetry on the elements actually present. -/
theorem sortBy_det {α : Type} (cmp : α → α → Ordering)
    (hasym : ∀ a b, cmp a b = .gt → ¬ cmp b a = .gt)
    (htrans : ∀ a b c, ¬ cmp a b = .gt → ¬ cmp b c = .gt → ¬ cmp a c = .gt)
    (l₁ l₂ : List α) (hp : l₁.Perm l₂)
    (hanti : ∀ a b, a ∈ l₁ → b ∈ l₁ → ¬ cmp a b = .gt → ¬ cmp b a = .gt → a = b) :
    sortBy cmp l₁ = sortBy cmp l₂ := by
  refine eq_of_perm_of_pairwise _ _ ?_ (sortBy_pairwise cmp hasym htrans l₁)
    (sortBy_pairwise cmp hasym htrans l₂) ?_
  · exact ((sortBy_perm cmp l₁).trans hp).trans (sortBy_perm cmp l₂).symm
  · intro a b ha hb
    exact hanti a b ((sortBy_perm cmp l₁).subset ha) ((sortBy_perm cmp l₁).subset hb)

/-! ### Facts about the concrete comparators -/

theorem char_toNat_inj {c d : Char} (h : c.toNat = d.toNat) : c = d :=
  Char.eq_of_val_eq (UInt32.eq_of_val_eq (Fin.eq_of_val_eq h))

theorem cmpOf_eq_iff {α : Type} [LinearOrder α] (a b : α) :
    cmpOf a b = .eq ↔ a = b := by
  unfold cmpOf
  rcases lt_trichotomy a b with h | h | h
  · rw [if_pos h]
    simp [ne_of_lt h]
  · rw [if_neg (by rw [h]; exact lt_irrefl b), if_neg (by rw [h]; exact lt_irrefl b)]
    simp [h]
  · rw [if_neg (lt_asymm h), if_pos h]
    simp [(ne_of_lt h).symm]

theorem cmpOf_lt_iff {α : Type} [LinearOrder α] (a b : α) :
    cmpOf a b = .lt ↔ a < b := by
  unfold cmpOf
  rcases lt_trichotomy a b with h | h | h
  · rw [if_pos h]
    simp [h]
  · rw [if_neg (by rw [h]; exact lt_irrefl b), if_neg (by rw [h]; exact lt_irrefl b)]
    simp [h]
  · rw [if_neg (lt_asymm h), if_pos h]
    simp [lt_asymm h]

theorem cmpOf_gt_iff {α : Type} [LinearOrder α] (a b : α) :
    cmpOf a b = .gt ↔ b < a := by
  unfold cmpOf
  rcases lt_trichotomy a b with h | h | h
  · rw [if_pos h]
    simp [lt_asymm h]
  · rw [if_neg (by rw [h]; exact lt_irrefl b), if_neg (by rw [h]; exact lt_irrefl b)]
    simp [h]
  · rw [if_neg (lt_asymm h), if_pos h]
    simp [h]

theorem cmpChars_eq_iff : ∀ l₁ l₂ : List Char, cmpChars l₁ l₂ = .eq ↔ l₁ = l₂ := by
  intro l₁
  induction l₁ with
  | nil =>
    intro l₂
    cases l₂ <;> simp [cmpChars]
  | cons a as ih =>
    intro l₂
    cases l₂ with
    | nil => simp [cmpChars]
    | cons b bs =>
      rw [cmpChars]
      rcases hc : cmpOf a.toNat b.toNat with _ | _ | _
      · simp only
        constructor
        · intro h
          exact absurd h (by simp)
        · intro h
          injection h with h1 h2
          rw [h1] at hc
          rw [(cmpOf_eq_iff b.toNat b.toNat).mpr rfl] at hc
          exact absurd hc (by simp)
      · simp only
        rw [ih bs]
        have hab : a = b := char_toNat_inj ((cmpOf_eq_iff _ _).mp hc)
        constructor
        · intro h
          rw [hab, h]
        · intro h
          injection h with h1 h2
      · simp only
        constructor
        · intro h
          exact absurd h (by simp)
        · intro h
          injection h with h1 h2
          rw [h1] at hc
          rw [(cmpOf_eq_iff b.toNat b.toNat).mpr rfl] at hc
          exact absurd hc (by simp)

theorem cmpChars_swap : ∀ l₁ l₂ : List Char, cmpChars l₁ l₂ = (cmpChars l₂ l₁).swap := by
  intro l₁
  induction l₁ with
  | nil =>
    intro l₂
    cases l₂ <;> rfl
  | cons a as ih =>
    intro l₂
    cases l₂ with
    | nil => rfl
    | cons b bs =>
      rw [cmpChars, cmpChars]
      rcases hc : cmpOf a.toNat b.toNat with _ | _ | _
      · have : cmpOf b.toNat a.toNat = .gt :=
          (cmpOf_gt_iff _ _).mpr ((cmpOf_lt_iff _ _).mp hc)
        rw [this]
        rfl
      · have : cmpOf b.toNat a.toNat = .eq :=
          (cmpOf_eq_iff _ _).mpr ((cmpOf_eq_iff _ _).mp hc).symm
        rw [this]
        exact ih bs
      · have : cmpOf b.toNat a.toNat = .lt :=
          (cmpOf_lt_iff _ _).mpr ((cmpOf_gt_iff _ _).mp hc)
        rw [this]
        rfl

theorem cmpChars_lt_trans : ∀ l₁ l₂ l₃ : List Char, cmpChars l₁ l₂ = .lt →
    cmpChars l₂ l₃ = .lt → cmpChars l₁ l₃ = .lt := by
  intro l₁
  induction l₁ with
  | nil =>
    intro l₂ l₃ h12 h23
    cases l₂ with
    | nil => cases l₃ <;> simp_all [cmpChars]
    | cons b bs =>
      cases l₃ with
      | nil => simp [cmpChars] at h23
      | cons c cs => rfl
  | cons a as ih =>
    intro l₂ l₃ h12 h23
    cases l₂ with
    | nil => simp [cmpChars] at h12
    | cons b bs =>
      cases l₃ with
      | nil => simp [cmpChars] at h23
      | cons c cs =>
        rw [cmpChars] at h12 h23 ⊢
        rcases hab : cmpOf a.toNat b.toNat with _ | _ | _
        · rcases hbc : cmpOf b.toNat c.toNat with _ | _ | _
          · have hac : cmpOf a.toNat c.toNat = .lt := by
              rw [cmpOf_lt_iff] at hab hbc ⊢
              omega
            rw [hac]
          · have hac : cmpOf a.toNat c.toNat = .lt := by
              rw [cmpOf_lt_iff] at hab ⊢
              rw [cmpOf_eq_iff] at hbc
              omega
            rw [hac]
          · rw [hbc] at h23
            simp at h23
        · have hb : a.toNat = b.toNat := (cmpOf_eq_iff _ _).mp hab
          rw [hab] at h12
          simp at h12
          rcases hbc : cmpOf b.toNat c.toNat with _ | _ | _
          · have hac : cmpOf a.toNat c.toNat = .lt := by
              rw [cmpOf_lt_iff] at hbc ⊢
              omega
            rw [hac]
          · have hac : cmpOf a.toNat c.toNat = .eq := by
              rw [cmpOf_eq_iff] at hbc ⊢
              omega
            rw [hac]
            rw [hbc] at h23
            simp at h23
            exact ih bs cs h12 h23
          · rw [hbc] at h23
            simp at h23
        · rw [hab] at h12
          simp at h12

theorem strCmp_eq_iff (s₁ s₂ : String) : strCmp s₁ s₂ = .eq ↔ s₁ = s₂ := by
  cases s₁ with
  | mk d₁ =>
    cases s₂ with
    | mk d₂ =>
      rw [strCmp]
      simp only
      rw [cmpChars_eq_iff]
      exact ⟨fun h => by rw [h], fun h => by injection h⟩

theorem strCmp_swap (s₁ s₂ : String) : strCmp s₁ s₂ = (strCmp s₂ s₁).swap :=
  cmpChars_swap s₁.data s₂.data

theorem strCmp_lt_trans {s₁ s₂ s₃ : String} (h12 : strCmp s₁ s₂ = .lt)
    (h23 : strCmp s₂ s₃ = .lt) : strCmp s₁ s₃ = .lt :=
  cmpChars_lt_trans s₁.data s₂.data s₃.data h12 h23

theorem strCmp_le_trans {s₁ s₂ s₃ : String} (h12 : ¬ strCmp s₁ s₂ = .gt)
    (h23 : ¬ strCmp s₂ s₃ = .gt) : ¬ strCmp s₁ s₃ = .gt := by
  rcases h1 : strCmp s₁ s₂ with _ | _ | _
  · rcases h2 : strCmp s₂ s₃ with _ | _ | _
    · rw [strCmp_lt_trans h1 h2]
      simp
    · rw [(strCmp_eq_iff s₂ s₃).mp h2] at h1
      rw [h1]
      simp
    · exact absurd h2 h23
  · rw [(strCmp_eq_iff s₁ s₂).mp h1]
    exact h23
  · exact absurd h1 h12

theorem cmpOf_swap {α : Type} [LinearOrder α] (a b : α) :
    cmpOf a b = (cmpOf b a).swap := by
  rcases lt_trichotomy a b with h | h | h
  · rw [(cmpOf_lt_iff a b).mpr h, (cmpOf_gt_iff b a).mpr h]
    rfl
  · rw [(cmpOf_eq_iff a b).mpr h, (cmpOf_eq_iff b a).mpr h.symm]
    rfl
  · rw [(cmpOf_gt_iff a b).mpr h, (cmpOf_lt_iff b a).mpr h]
    rfl

theorem optCmp_eq_iff {α : Type} [LinearOrder α] :
    ∀ o₁ o₂ : Option α, optCmpWith cmpOf o₁ o₂ = .eq ↔ o₁ = o₂ := by
  intro o₁ o₂
  cases o₁ <;> cases o₂ <;> simp [optCmpWith, cmpOf_eq_iff]

theorem optCmp_swap {α : Type} [LinearOrder α] (o₁ o₂ : Option α) :
    optCmpWith cmpOf o₁ o₂ = (optCmpWith cmpOf o₂ o₁).swap := by
  cases o₁ <;> cases o₂ <;> simp [optCmpWith, Ordering.swap]
  exact cmpOf_swap _ _

theorem optCmp_lt_trans {α : Type} [LinearOrder α] {o₁ o₂ o₃ : Option α}
    (h12 : optCmpWith cmpOf o₁ o₂ = .lt) (h23 : optCmpWith cmpOf o₂ o₃ = .lt) :
    optCmpWith cmpOf o₁ o₃ = .lt := by
  cases o₁ <;> cases o₂ <;> cases o₃ <;> simp_all [optCmpWith]
  rw [cmpOf_lt_iff] at h12 h23 ⊢
  exact lt_trans h12 h23

theorem optCmp_le_trans {α : Type} [LinearOrder α] {o₁ o₂ o₃ : Option α}
    (h12 : ¬ optCmpWith cmpOf o₁ o₂ = .gt) (h23 : ¬ optCmpWith cmpOf o₂ o₃ = .gt) :
    ¬ optCmpWith cmpOf o₁ o₃ = .gt := by
  rcases h1 : optCmpWith cmpOf o₁ o₂ with _ | _ | _
  · rcases h2 : optCmpWith cmpOf o₂ o₃ with _ | _ | _
    · rw [optCmp_lt_trans h1 h2]
      simp
    · rw [(optCmp_eq_iff o₂ o₃).mp h2] at h1
      rw [h1]
      simp
    · exact absurd h2 h23
  · rw [(optCmp_eq_iff o₁ o₂).mp h1]
    exact h23
  · exact absurd h1 h12

theorem thenCmp_ne_gt (o₁ o₂ : Ordering) :
    ¬ thenCmp o₁ o₂ = .gt ↔ o₁ = .lt ∨ (o₁ = .eq ∧ ¬ o₂ = .gt) := by
  cases o₁ <;> simp [thenCmp]

theorem thenCmp_eq_eq (o₁ o₂ : Ordering) :
    thenCmp o₁ o₂ = .eq ↔ o₁ = .eq ∧ o₂ = .eq := by
  cases o₁ <;> simp [thenCmp]

theorem thenCmp_swap (o₁ o₂ : Ordering) :
    thenCmp o₁.swap o₂.swap = (thenCmp o₁ o₂).swap := by
  cases o₁ <;> rfl

theorem ordering_swap_eq_gt {o : Ordering} (h : o.swap = .gt) : o = .lt := by
  cases o <;> simp_all [Ordering.swap]

theorem ordering_ne_gt_of_swap {o : Ordering} (h : ¬ o = .gt) : ¬ o.swap = .lt := by
  cases o <;> simp_all [Ordering.swap]

theorem nodup_map_inj_on {α β : Type} (f : α → β) :
    ∀ l : List α, (l.map f).Nodup → ∀ a b, a ∈ l → b ∈ l → f a = f b → a = b := by
  intro l
  induction l with
  | nil => intro _ a b ha _ _; exact absurd ha (by simp)
  | cons x t ih =>
    intro hn a b ha hb hf
    simp only [List.map_cons, List.nodup_cons] at hn
    rcases List.mem_cons.mp ha with hax | hat
    · rcases List.mem_cons.mp hb with hbx | hbt
      · rw [hax, hbx]
      · exfalso
        apply hn.1
        rw [← hax, hf]
        exact List.mem_map_of_mem f hbt
    · rcases List.mem_cons.mp hb with hbx | hbt
      · exfalso
        apply hn.1
        rw [← hbx, ← hf]
        exact List.mem_map_of_mem f hat
      · exact ih hn.2 a b hat hbt hf

theorem two_le_filter_length {α : Type} (p : α → Bool) {l : List α} {a b : α}
    (ha : a ∈ l) (hb : b ∈ l) (hab : a ≠ b) (hpa : p a = true) (hpb : p b = true) :
    2 ≤ (l.filter p).length := by
  have ha' : a ∈ l.filter p := List.mem_filter.mpr ⟨ha, hpa⟩
  have hb' : b ∈ l.filter p := List.mem_filter.mpr ⟨hb, hpb⟩
  obtain ⟨s, t, hst⟩ := List.append_of_mem ha'
  rw [hst] at hb'
  rw [hst, List.length_append, List.length_cons]
  rcases List.mem_append.mp hb' with h | h
  · have := List.length_pos.mpr (List.ne_nil_of_mem h)
    omega
  · rcases List.mem_cons.mp h with h' | h'
    · exact absurd h'.symm hab
    · have := List.length_pos.mpr (List.ne_nil_of_mem h')
      omega

/-! ### Properties of the option comparator (`QuestionData::sort`) -/

theorem qoc_asym (a b : QuestionOptionData) (h : questionOptionCmp a b = .gt) :
    ¬ questionOptionCmp b a = .gt := by
  unfold questionOptionCmp at h ⊢
  by_cases ha : a.correct = true
  · rw [if_pos ha] at h
    exact absurd h (by simp)
  · rw [if_neg ha] at h
    rw [if_neg ha]
    by_cases hb : b.correct = true
    · rw [if_pos hb]
      simp
    · rw [if_neg hb] at h
      rw [if_neg hb]
      have := strCmp_swap a.text b.text
      rw [h] at this
      rw [ordering_swap_eq_gt this.symm]
      simp

theorem qoc_trans (a b c : QuestionOptionData) (h1 : ¬ questionOptionCmp a b = .gt)
    (h2 : ¬ questionOptionCmp b c = .gt) : ¬ questionOptionCmp a c = .gt := by
  unfold questionOptionCmp at h1 h2 ⊢
  by_cases ha : a.correct = true
  · rw [if_pos ha]
    simp
  · rw [if_neg ha] at h1 ⊢
    by_cases hb : b.correct = true
    · rw [if_pos hb] at h1
      exact absurd rfl h1
    · rw [if_neg hb] at h1
      rw [if_neg hb] at h2
      by_cases hc : c.correct = true
      · rw [if_pos hc] at h2
        exact absurd rfl h2
      · rw [if_neg hc] at h2
        rw [if_neg hc]
        exact strCmp_le_trans h1 h2

/-- Local antisymmetry of the option comparator: on a list with at most one
correct option and pairwise distinct texts among the non-correct options,
mutually non-greater elements are equal. -/
theorem qoc_antisym_on (l : List QuestionOptionData)
    (hcor : (l.filter (fun o => o.correct)).length ≤ 1)
    (htex : ((l.filter (fun o => !o.correct)).map QuestionOptionData.text).Nodup)
    (a b : QuestionOptionData) (ha : a ∈ l) (hb : b ∈ l)
    (h1 : ¬ questionOptionCmp a b = .gt) (h2 : ¬ questionOptionCmp b a = .gt) :
    a = b := by
  by_contra hab
  by_cases hac : a.correct = true
  · have hbc : b.correct = true := by
      by_contra hbc
      unfold questionOptionCmp at h2
      rw [if_neg hbc, if_pos hac] at h2
      exact h2 rfl
    have := two_le_filter_length (fun o => o.correct) ha hb hab hac hbc
    omega
  · have hbc : ¬ b.correct = true := by
      intro hbc
      unfold questionOptionCmp at h1
      rw [if_neg hac, if_pos hbc] at h1
      exact h1 rfl
    unfold questionOptionCmp at h1 h2
    rw [if_neg hac, if_neg hbc] at h1
    rw [if_neg hbc, if_neg hac] at h2
    have hsw := strCmp_swap a.text b.text
    have heq : strCmp a.text b.text = .eq := by
      rcases h : strCmp a.text b.text with _ | _ | _
      · rw [h] at hsw
        have : strCmp b.text a.text = .gt := by
          cases h' : strCmp b.text a.text <;> rw [h'] at hsw <;>
            first | rfl | (exact absurd hsw (by decide))
        exact absurd this h2
      · rfl
      · exact absurd h h1
    have htexteq : a.text = b.text := (strCmp_eq_iff _ _).mp heq
    have hafin : a ∈ l.filter (fun o => !o.correct) :=
      List.mem_filter.mpr ⟨ha, by simp [hac]⟩
    have hbfin : b ∈ l.filter (fun o => !o.correct) :=
      List.mem_filter.mpr ⟨hb, by simp [hbc]⟩
    exact hab (nodup_map_inj_on QuestionOptionData.text _ htex a b hafin hbfin htexteq)

/-! ### Properties of the question comparator (`CourseData::sort`) -/

theorem qc_swap (a b : QuestionData) : questionCmp a b = (questionCmp b a).swap := by
  unfold questionCmp
  rw [← thenCmp_swap, ← thenCmp_swap, ← thenCmp_swap]
  rw [← cmpOf_swap, ← optCmp_swap, ← strCmp_swap, ← cmpOf_swap]

theorem qc_asym (a b : QuestionData) (h : questionCmp a b = .gt) :
    ¬ questionCmp b a = .gt := by
  intro h'
  rw [qc_swap a b, h'] at h
  exact absurd h (by simp [Ordering.swap])

theorem qc_trans (a b c : QuestionData) (h1 : ¬ questionCmp a b = .gt)
    (h2 : ¬ questionCmp b c = .gt) : ¬ questionCmp a c = .gt := by
  unfold questionCmp at h1 h2 ⊢
  rw [thenCmp_ne_gt] at h1 h2 ⊢
  rcases h1 with h1t | ⟨h1t, h1r⟩
  · rcases h2 with h2t | ⟨h2t, h2r⟩
    · left
      rw [cmpOf_lt_iff] at h1t h2t ⊢
      omega
    · left
      rw [cmpOf_eq_iff] at h2t
      rw [← h2t]
      exact h1t
  · rcases h2 with h2t | ⟨h2t, h2r⟩
    · left
      rw [cmpOf_eq_iff] at h1t
      rw [h1t]
      exact h2t
    · right
      rw [cmpOf_eq_iff] at h1t h2t
      refine ⟨by rw [cmpOf_eq_iff]; omega, ?_⟩
      rw [thenCmp_ne_gt] at h1r h2r ⊢
      rcases h1r with h1d | ⟨h1d, h1r⟩
      · rcases h2r with h2d | ⟨h2d, h2r⟩
        · exact Or.inl (optCmp_lt_trans h1d h2d)
        · rw [optCmp_eq_iff] at h2d
          rw [← h2d]
          exact Or.inl h1d
      · rcases h2r with h2d | ⟨h2d, h2r⟩
        · rw [optCmp_eq_iff] at h1d
          rw [h1d]
          exact Or.inl h2d
        · right
          rw [optCmp_eq_iff] at h1d h2d
          refine ⟨by rw [optCmp_eq_iff, h1d, h2d], ?_⟩
          rw [thenCmp_ne_gt] at h1r h2r ⊢
          rcases h1r with h1x | ⟨h1x, h1i⟩
          · rcases h2r with h2x | ⟨h2x, h2i⟩
            · exact Or.inl (strCmp_lt_trans h1x h2x)
            · rw [strCmp_eq_iff] at h2x
              rw [← h2x]
              exact Or.inl h1x
          · rcases h2r with h2x | ⟨h2x, h2i⟩
            · rw [strCmp_eq_iff] at h1x
              rw [h1x]
              exact Or.inl h2x
            · right
              rw [strCmp_eq_iff] at h1x h2x
              refine ⟨by rw [strCmp_eq_iff, h1x, h2x], ?_⟩
              rw [cmpOf_gt_iff] at h1i h2i
              rw [cmpOf_gt_iff]
              omega

/-! ### Claim C1: determinism of the canonical order -/

/-- Claim C1 as stated is false: with two correct options (an input reachable
at the sort step, since validation runs only afterwards) the option
comparator answers `Less` both ways — it is not a total order — and the
(stable) sort produces different output sequences from multiset-equal
inputs. -/
theorem C1_counterexample :
    questionOptionCmp ⟨1, 5, "A.", true, 0, false, []⟩ ⟨2, 5, "B.", true, 1, false, []⟩
        = .lt ∧
    questionOptionCmp ⟨2, 5, "B.", true, 1, false, []⟩ ⟨1, 5, "A.", true, 0, false, []⟩
        = .lt ∧
    (⟨1, 5, "A.", true, 0, false, []⟩ : QuestionOptionData) ≠
      ⟨2, 5, "B.", true, 1, false, []⟩ ∧
    (([⟨1, 5, "A.", true, 0, false, []⟩, ⟨2, 5, "B.", true, 1, false, []⟩] :
        List QuestionOptionData).Perm
      [⟨2, 5, "B.", true, 1, false, []⟩, ⟨1, 5, "A.", true, 0, false, []⟩]) ∧
    sortBy questionOptionCmp
        [⟨1, 5, "A.", true, 0, false, []⟩, ⟨2, 5, "B.", true, 1, false, []⟩] ≠
      sortBy questionOptionCmp
        [⟨2, 5, "B.", true, 1, false, []⟩, ⟨1, 5, "A.", true, 0, false, []⟩] := by
  refine ⟨rfl, rfl, by decide, ?_, by decide⟩
  exact List.Perm.swap _ _ []

/-- Claim C1 amended: the canonical order is deterministic on the inputs the
pipeline feeds to it provided at most one option is correct and the
non-correct options have pairwise distinct texts (both guaranteed by
validation, though sorting precedes validation), and provided question ids
are pairwise distinct; under those provisos multiset-equal inputs sort to
the same sequence, and a question whose option list is permuted processes to
the identical record and fingerprint. -/
theorem C1_amended_sort_determinism :
    (∀ l₁ l₂ : List QuestionOptionData, l₁.Perm l₂ →
      (l₁.filter (fun o => o.correct)).length ≤ 1 →
      ((l₁.filter (fun o => !o.correct)).map QuestionOptionData.text).Nodup →
      sortBy questionOptionCmp l₁ = sortBy questionOptionCmp l₂) ∧
    (∀ qs₁ qs₂ : List QuestionData, qs₁.Perm qs₂ →
      (qs₁.map QuestionData.id).Nodup →
      sortBy questionCmp qs₁ = sortBy questionCmp qs₂) ∧
    (∀ (d : Digest) (q : QuestionData) (l₂ : List QuestionOptionData),
      q.question_options.Perm l₂ →
      (q.question_options.filter (fun o => o.correct)).length ≤ 1 →
      ((q.question_options.filter (fun o => !o.correct)).map
        QuestionOptionData.text).Nodup →
      QuestionData.process d q = QuestionData.process d { q with question_options := l₂ }) := by
  have hopt : ∀ l₁ l₂ : List QuestionOptionData, l₁.Perm l₂ →
      (l₁.filter (fun o => o.correct)).length ≤ 1 →
      ((l₁.filter (fun o => !o.correct)).map QuestionOptionData.text).Nodup →
      sortBy questionOptionCmp l₁ = sortBy questionOptionCmp l₂ := by
    intro l₁ l₂ hp hcor htex
    exact sortBy_det questionOptionCmp qoc_asym qoc_trans l₁ l₂ hp
      (qoc_antisym_on l₁ hcor htex)
  refine ⟨hopt, ?_, ?_⟩
  · intro qs₁ qs₂ hp hid
    refine sortBy_det questionCmp qc_asym qc_trans qs₁ qs₂ hp ?_
    intro a b ha hb h1 h2
    have heq : questionCmp a b = .eq := by
      have hsw := qc_swap a b
      rcases h : questionCmp a b with _ | _ | _
      · rw [h] at hsw
        have : questionCmp b a = .gt := by
          cases h' : questionCmp b a <;> rw [h'] at hsw <;>
            first | rfl | (exact absurd hsw (by decide))
        exact absurd this h2
      · rfl
      · exact absurd h h1
    unfold questionCmp at heq
    rw [thenCmp_eq_eq] at heq
    rw [thenCmp_eq_eq] at heq
    obtain ⟨_, _, hrest⟩ := heq
    rw [thenCmp_eq_eq] at hrest
    have hid_eq : a.id = b.id := (cmpOf_eq_iff _ _).mp hrest.2
    exact nodup_map_inj_on QuestionData.id qs₁ hid a b ha hb hid_eq
  · intro d q l₂ hp hcor htex
    have hps : (q.question_options.filter (fun o => !o.is_blank)).Perm
        (l₂.filter (fun o => !o.is_blank)) := hp.filter _
    have hcor' : ((q.question_options.filter (fun o => !o.is_blank)).filter
        (fun o => o.correct)).length ≤ 1 := by
      have hs : List.Sublist ((q.question_options.filter (fun o => !o.is_blank)).filter
          (fun o => o.correct)) (q.question_options.filter (fun o => o.correct)) :=
        (List.filter_sublist q.question_options).filter _
      exact le_trans hs.length_le hcor
    have htex' : (((q.question_options.filter (fun o => !o.is_blank)).filter
        (fun o => !o.correct)).map QuestionOptionData.text).Nodup := by
      have hs : List.Sublist (((q.question_options.filter (fun o => !o.is_blank)).filter
          (fun o => !o.correct)).map QuestionOptionData.text)
          ((q.question_options.filter (fun o => !o.correct)).map
            QuestionOptionData.text) :=
        ((List.filter_sublist q.question_options).filter _).map _
      exact htex.sublist hs
    have hsorteq : sortBy questionOptionCmp
        (q.question_options.filter (fun o => !o.is_blank)) =
        sortBy questionOptionCmp (l₂.filter (fun o => !o.is_blank)) :=
      hopt _ _ hps hcor' htex'
    obtain ⟨qid, ck, src, qtext, expl, tpc, tby, qtags, img, opts, qh⟩ := q
    simp only [QuestionData.process, QuestionData.remove_blank_options,
      QuestionData.format, QuestionData.sortQ] at hsorteq ⊢
    rw [hsorteq]

/-- Witness for the amended C1: a two-option list (one correct, distinct
texts) sorts identically from both orders, and so does a two-question list
with distinct ids. -/
theorem C1_witness :
    sortBy questionOptionCmp
        [⟨1, 5, "A.", true, 0, false, []⟩, ⟨2, 5, "B.", false, 1, false, []⟩] =
      sortBy questionOptionCmp
        [⟨2, 5, "B.", false, 1, false, []⟩, ⟨1, 5, "A.", true, 0, false, []⟩] :=
  C1_amended_sort_determinism.1 _ _ (List.Perm.swap _ _ []) (by decide) (by decide)

/-! ### Claim C9: the replace-child precondition -/

theorem replaceFirst_append {α : Type} (p : α → Bool) (x q : α) :
    ∀ (l₁ l₂ : List α), (∀ y ∈ l₁, p y = false) → p q = true →
      replaceFirst p x (l₁ ++ q :: l₂) = l₁ ++ x :: l₂ := by
  intro l₁
  induction l₁ with
  | nil =>
    intro l₂ _ hq
    simp only [List.nil_append, replaceFirst, hq, if_true]
  | cons a t ih =>
    intro l₂ hnone hq
    have ha : p a = false := hnone a (List.mem_cons_self a t)
    simp only [List.cons_append, replaceFirst, ha]
    rw [if_neg (by simp)]
    show a :: replaceFirst p x (t ++ q :: l₂) = a :: (t ++ x :: l₂)
    rw [ih l₂ (fun y hy => hnone y (List.mem_cons_of_mem a hy)) hq]

/-- Claim C9: `CourseData::replace_question` panics (modelled as `none`)
exactly when no question carries the replacement's id; when the first
matching question sits at a known position the function substitutes exactly
that question and reruns the whole `process` pipeline on the course. -/
theorem C9_replace_question_precondition :
    (∀ (d : Digest) (c : CourseData) (nq : QuestionData),
      (CourseData.replace_question d c nq = none ↔ ∀ q ∈ c.questions, q.id ≠ nq.id)) ∧
    (∀ (d : Digest) (c : CourseData) (nq : QuestionData)
        (qs₁ : List QuestionData) (q : QuestionData) (qs₂ : List QuestionData),
      c.questions = qs₁ ++ q :: qs₂ → q.id = nq.id → (∀ x ∈ qs₁, x.id ≠ nq.id) →
      CourseData.replace_question d c nq =
        some (CourseData.process d { c with questions := qs₁ ++ nq :: qs₂ })) := by
  constructor
  · intro d c nq
    unfold CourseData.replace_question
    by_cases h : c.questions.any (fun q => decide (q.id = nq.id))
    · rw [if_pos h]
      simp only [List.any_eq_true, decide_eq_true_eq] at h
      obtain ⟨q, hq, hid⟩ := h
      constructor
      · intro hnone
        exact absurd hnone (by simp)
      · intro hall
        exact absurd hid (hall q hq)
    · rw [if_neg h]
      simp only [List.any_eq_true, decide_eq_true_eq] at h
      push_neg at h
      exact ⟨fun _ => h, fun _ => rfl⟩
  · intro d c nq qs₁ q qs₂ hdec hid hnotbefore
    unfold CourseData.replace_question
    rw [if_pos (by
      rw [hdec]
      simp only [List.any_eq_true, decide_eq_true_eq]
      exact ⟨q, by simp, hid⟩)]
    rw [hdec, replaceFirst_append _ _ _ qs₁ qs₂
      (fun y hy => by simp [hnotbefore y hy]) (by simp [hid])]

/-- Sample question ("Old.") for the C9 witness. -/
def sampleOldQ : QuestionData :=
  { id := 3, course_key := "k", source := ⟨"k", .Exam, none, some 0, none⟩,
    text := "Old.", explanation := none, topic := ⟨"k", "t"⟩, topic_by := none,
    tags := [], image_file_name := none,
    question_options := [⟨30, 3, "A.", true, 0, false, []⟩,
      ⟨31, 3, "B.", false, 1, false, []⟩], hash := [] }

/-- Sample replacement question ("New.") for the C9 witness. -/
def sampleNewQ : QuestionData :=
  { sampleOldQ with text := "New." }

/-- Sample course for the C9 witness. -/
def sampleCourse : CourseData :=
  { key := "k", name := "N", short_name := "S", description := none,
    price_in_uyu := 0, tags := [], image_file_name := "k.png", year := none,
    order := none, questions := [sampleOldQ], valid_topics := [], hash := [] }

/-- Witness for C9: replacing the sole question of a concrete course
substitutes it and reruns the pipeline. -/
theorem C9_witness :
    CourseData.replace_question (fun b => b) sampleCourse sampleNewQ =
      some (CourseData.process (fun b => b)
        { sampleCourse with questions := [sampleNewQ] }) :=
  C9_replace_question_precondition.2 (fun b => b) sampleCourse sampleNewQ []
    sampleOldQ [] rfl rfl (fun x hx => absurd hx (by simp))

/-! ### Claim C3: question deduplication -/

/-- First of two semantically equal questions whose options reference their
own (distinct) owner ids. -/
def dupQA : QuestionData :=
  { id := 1, course_key := "k", source := ⟨"k", .Exam, none, some 0, none⟩,
    text := "Same.", explanation := none, topic := ⟨"k", "t"⟩, topic_by := none,
    tags := [], image_file_name := none,
    question_options := [⟨10, 1, "A.", true, 0, false, []⟩,
      ⟨11, 1, "B.", false, 1, false, []⟩], hash := [] }

/-- Second duplicate: different generated id, options referencing it. -/
def dupQB : QuestionData :=
  { dupQA with
      id := 2
      question_options := [⟨12, 2, "A.", true, 0, false, []⟩,
        ⟨13, 2, "B.", false, 1, false, []⟩] }

/-- Course holding the two duplicates. -/
def dupCourse : CourseData :=
  { key := "k", name := "N", short_name := "S", description := none,
    price_in_uyu := 0, tags := [], image_file_name := "k.png", year := none,
    order := none, questions := [dupQA, dupQB], valid_topics := [], hash := [] }

/-- Claim C3 as stated is false: two sibling questions with identical text,
identical source and option sets equal up to option ids — but with different
question ids, hence options referencing different `question_id`s — are NOT
collapsed by `CourseData::process`, because `QuestionOptionData::eq_data`
compares the `question_id` back-reference. -/
theorem C3_counterexample :
    dupQA.text = dupQB.text ∧ dupQA.source = dupQB.source ∧
    dupQA.question_options.map (fun o => (o.text, o.correct)) =
      dupQB.question_options.map (fun o => (o.text, o.correct)) ∧
    dupQA.id ≠ dupQB.id ∧
    (∃ c', CourseData.process (fun b => b) dupCourse = .ok c' ∧
      c'.questions.length = 2) := by
  exact ⟨rfl, rfl, rfl, by decide, ⟨_, rfl, by decide⟩⟩

/-- A successful `CourseData::process` returns exactly the
removed-blanks/formatted/sorted/deduplicated course with a refreshed hash. -/
theorem course_process_ok_shape (d : Digest) (c c' : CourseData)
    (hok : CourseData.process d c = .ok c') :
    c' = CourseData.refresh_hash d
      (c.remove_blank_questions.format.sortQ.deduplicate) := by
  simp only [CourseData.process] at hok
  revert hok
  cases hchk : (c.remove_blank_questions.format.sortQ.deduplicate).check with
  | error e =>
    intro hok
    exact absurd hok (by simp)
  | ok u =>
    intro hok
    simp only at hok
    injection hok with hok
    exact hok.symm

/-- Claim C3 amended: a sibling pair adjacent after the sort collapses to
one question iff it is `eq_data`-equal, which requires the matched options
to agree on the `question_id` back-reference as well (so duplicates under
different generated ids survive, as `C3_counterexample` shows; duplicates
whose options carry equal back-references are collapsed). -/
theorem C3_amended_dedup :
    (∀ (d : Digest) (c : CourseData) (q₁ q₂ : QuestionData) (rest : List QuestionData),
      sortBy questionCmp (c.questions.filter (fun q => !q.is_blank)) = q₁ :: q₂ :: rest →
      QuestionData.eq_data q₂ q₁ = true →
      ∀ c', CourseData.process d c = .ok c' →
        c'.questions = dedupBy QuestionData.eq_data (q₁ :: rest)) ∧
    (∀ (d : Digest) (c : CourseData) (q₁ q₂ : QuestionData) (rest : List QuestionData),
      sortBy questionCmp (c.questions.filter (fun q => !q.is_blank)) = q₁ :: q₂ :: rest →
      QuestionData.eq_data q₂ q₁ = false →
      ∀ c', CourseData.process d c = .ok c' →
        c'.questions = q₁ :: q₂ :: dedupByAux QuestionData.eq_data q₂ rest) := by
  constructor
  · intro d c q₁ q₂ rest hsort heq c' hok
    rw [course_process_ok_shape d c c' hok]
    show dedupBy QuestionData.eq_data
        (sortBy questionCmp (c.questions.filter (fun q => !q.is_blank))) =
      dedupBy QuestionData.eq_data (q₁ :: rest)
    rw [hsort]
    simp [dedupBy, dedupByAux, heq]
  · intro d c q₁ q₂ rest hsort heq c' hok
    rw [course_process_ok_shape d c c' hok]
    show dedupBy QuestionData.eq_data
        (sortBy questionCmp (c.questions.filter (fun q => !q.is_blank))) =
      q₁ :: q₂ :: dedupByAux QuestionData.eq_data q₂ rest
    rw [hsort]
    simp [dedupBy, dedupByAux, heq]

/-- Duplicate questions whose options agree on the back-reference (both
reference question id 7): these DO collapse. -/
def dupEqQA : QuestionData :=
  { dupQA with
    question_options := [⟨10, 7, "A.", true, 0, false, []⟩,
      ⟨11, 7, "B.", false, 1, false, []⟩] }

/-- Second copy under a different generated id but identical option
back-references. -/
def dupEqQB : QuestionData :=
  { dupEqQA with id := 2 }

/-- Course holding the collapsible pair. -/
def dupEqCourse : CourseData :=
  { dupCourse with questions := [dupEqQA, dupEqQB] }

/-- Witness for the amended C3: with matching back-references the pair
collapses to one question. -/
theorem C3_witness :
    ∃ c', CourseData.process (fun b => b) dupEqCourse = .ok c' ∧
      c'.questions = [dupEqQA] := by
  refine ⟨_, rfl, ?_⟩
  have h := C3_amended_dedup.1 (fun b => b) dupEqCourse dupEqQA dupEqQB []
    (by decide) (by decide) _ rfl
  exact h.trans (by rfl)

/-! ### Normal forms of `format_text` output (towards idempotence, claim C6) -/

/-- First character, if any, is not whitespace. -/
def headNonWs : List Char → Bool
  | [] => true
  | c :: _ => !isWsp c

/-- Last character, if any, is not whitespace. -/
def lastNonWs : List Char → Bool
  | [] => true
  | [c] => !isWsp c
  | _ :: c :: t => lastNonWs (c :: t)

/-- No two adjacent whitespace characters. -/
def noAdjWs : List Char → Bool
  | c₁ :: c₂ :: t => (!(isWsp c₁ && isWsp c₂)) && noAdjWs (c₂ :: t)
  | _ => true

/-- The last two characters are not whitespace followed by terminal
punctuation. -/
def noWsEnd : List Char → Bool
  | [w, p] => !(isWsp w && isEndPunct p)
  | _ :: c :: t => noWsEnd (c :: t)
  | _ => true

/-- No curly double quotes. -/
def noCurly (l : List Char) : Bool :=
  l.all fun c => !(c == '“' || c == '”')

/-- No digit immediately followed by a percent sign. -/
def noDigPct : List Char → Bool
  | c₁ :: c₂ :: t => (!(isDigitCh c₁ && c₂ == '%')) && noDigPct (c₂ :: t)
  | _ => true

/-- The normal form `format_text` produces and leaves fixed. -/
def normChars (l : List Char) : Bool :=
  headNonWs l && lastNonWs l && noAdjWs l && noWsEnd l && noCurly l && noDigPct l

theorem lastNonWs_cons_of_ne_nil (a : Char) {l : List Char} (h : l ≠ []) :
    lastNonWs (a :: l) = lastNonWs l := by
  cases l with
  | nil => exact absurd rfl h
  | cons c t => rfl

theorem noWsEnd_cons_of_len2 (a : Char) {l : List Char} (h : 2 ≤ l.length) :
    noWsEnd (a :: l) = noWsEnd l := by
  match l, h with
  | b :: c :: t, _ => rfl

theorem noAdjWs_cons₂_eq (a b : Char) (t : List Char) :
    noAdjWs (a :: b :: t) = ((!(isWsp a && isWsp b)) && noAdjWs (b :: t)) := rfl

theorem noDigPct_cons₂_eq (a b : Char) (t : List Char) :
    noDigPct (a :: b :: t) = ((!(isDigitCh a && b == '%')) && noDigPct (b :: t)) := rfl

theorem noAdjWs_tail {a : Char} {l : List Char} (h : noAdjWs (a :: l) = true) :
    noAdjWs l = true := by
  cases l with
  | nil => rfl
  | cons b t =>
    rw [noAdjWs_cons₂_eq, Bool.and_eq_true] at h
    exact h.2

theorem noDigPct_tail {a : Char} {l : List Char} (h : noDigPct (a :: l) = true) :
    noDigPct l = true := by
  cases l with
  | nil => rfl
  | cons b t =>
    rw [noDigPct_cons₂_eq, Bool.and_eq_true] at h
    exact h.2

theorem noWsEnd_tail_of_len2 {a : Char} {l : List Char} (h2 : 2 ≤ l.length)
    (h : noWsEnd (a :: l) = true) : noWsEnd l = true := by
  rw [noWsEnd_cons_of_len2 a h2] at h
  exact h

theorem headNonWs_append_left {l : List Char} (h : l ≠ []) (l' : List Char) :
    headNonWs (l ++ l') = headNonWs l := by
  cases l with
  | nil => exact absurd rfl h
  | cons c t => rfl

theorem lastNonWs_append_singleton (c : Char) :
    ∀ l : List Char, lastNonWs (l ++ [c]) = !isWsp c := by
  intro l
  induction l with
  | nil => rfl
  | cons a t ih =>
    cases t with
    | nil => rfl
    | cons b t' =>
      rw [List.cons_append, lastNonWs_cons_of_ne_nil a (by simp)]
      exact ih

theorem noWsEnd_append_pair (w p : Char) :
    ∀ l : List Char, noWsEnd (l ++ [w, p]) = !(isWsp w && isEndPunct p) := by
  intro l
  induction l with
  | nil => rfl
  | cons a t ih =>
    rw [List.cons_append, noWsEnd_cons_of_len2 a (by simp)]
    exact ih

theorem noWsEnd_append_singleton_of_lastNonWs {l : List Char} (c : Char)
    (h : lastNonWs l = true) : noWsEnd (l ++ [c]) = true := by
  induction l with
  | nil => rfl
  | cons a t ih =>
    cases t with
    | nil =>
      have ha : isWsp a = false := by simpa [lastNonWs] using h
      show noWsEnd [a, c] = true
      show (!(isWsp a && isEndPunct c)) = true
      rw [ha]
      simp
    | cons b t' =>
      rw [lastNonWs_cons_of_ne_nil a (by simp)] at h
      rw [List.cons_append, noWsEnd_cons_of_len2 a (by simp)]
      exact ih h

theorem noAdjWs_append_singleton {l : List Char} {c : Char}
    (h : noAdjWs l = true) (hc : isWsp c = false) : noAdjWs (l ++ [c]) = true := by
  induction l with
  | nil => rfl
  | cons a t ih =>
    cases t with
    | nil =>
      show noAdjWs [a, c] = true
      have h1 : noAdjWs [c] = true := rfl
      rw [noAdjWs_cons₂_eq, h1, hc]
      simp
    | cons b t' =>
      rw [noAdjWs_cons₂_eq] at h
      rw [Bool.and_eq_true] at h
      rw [List.cons_append, List.cons_append, noAdjWs_cons₂_eq]
      rw [Bool.and_eq_true]
      refine ⟨h.1, ?_⟩
      rw [← List.cons_append]
      exact ih h.2

theorem noDigPct_append_singleton {l : List Char} {c : Char}
    (h : noDigPct l = true) (hc : (c == '%') = false) : noDigPct (l ++ [c]) = true := by
  induction l with
  | nil => rfl
  | cons a t ih =>
    cases t with
    | nil =>
      show noDigPct [a, c] = true
      have h1 : noDigPct [c] = true := rfl
      rw [noDigPct_cons₂_eq, h1, hc]
      simp
    | cons b t' =>
      rw [noDigPct_cons₂_eq] at h
      rw [Bool.and_eq_true] at h
      rw [List.cons_append, List.cons_append, noDigPct_cons₂_eq]
      rw [Bool.and_eq_true]
      refine ⟨h.1, ?_⟩
      rw [← List.cons_append]
      exact ih h.2

theorem noCurly_append_singleton {l : List Char} {c : Char}
    (h : noCurly l = true) (hc : (c == '“' || c == '”') = false) :
    noCurly (l ++ [c]) = true := by
  unfold noCurly at h ⊢
  rw [List.all_append, h]
  simp only [List.all_cons, List.all_nil, Bool.and_true, Bool.true_and]
  rw [hc]
  simp

theorem digit_not_ws {c : Char} (h : isDigitCh c = true) : isWsp c = false := by
  simp only [isDigitCh, Bool.and_eq_true, decide_eq_true_eq] at h
  simp only [isWsp, Bool.or_eq_false_iff, Bool.and_eq_false_iff,
    decide_eq_false_iff_not, beq_eq_false_iff_ne, ne_eq]
  omega

theorem punct_not_ws {c : Char} (h : isEndPunct c = true) : isWsp c = false := by
  simp only [isEndPunct, Bool.or_eq_true, beq_iff_eq] at h
  rcases h with (h | h) | h <;> subst h <;> decide

/-! #### `trimWs` -/

theorem dropWhile_head_false (p : Char → Bool) :
    ∀ l : List Char, headNonWs (l.dropWhile isWsp) = true := by
  intro l
  induction l with
  | nil => rfl
  | cons c t ih =>
    rw [List.dropWhile_cons]
    by_cases h : isWsp c = true
    · rw [if_pos h]
      exact ih
    · rw [if_neg h]
      show (!isWsp c) = true
      simp only [Bool.not_eq_true] at h
      rw [h]
      rfl

theorem dropWhile_id_of_headNonWs {l : List Char} (h : headNonWs l = true) :
    l.dropWhile isWsp = l := by
  cases l with
  | nil => rfl
  | cons c t =>
    rw [List.dropWhile_cons, if_neg]
    simp only [headNonWs, Bool.not_eq_true'] at h
    simp [h]

theorem lastNonWs_dropWhile (p : Char → Bool) :
    ∀ l : List Char, lastNonWs l = true → lastNonWs (l.dropWhile p) = true := by
  intro l
  induction l with
  | nil => intro _; rfl
  | cons c t ih =>
    intro h
    rw [List.dropWhile_cons]
    by_cases hc : p c = true
    · rw [if_pos hc]
      cases t with
      | nil => rfl
      | cons b t' =>
        exact ih (by rw [lastNonWs_cons_of_ne_nil c (by simp)] at h; exact h)
    · rw [if_neg hc]
      exact h

theorem headNonWs_reverse : ∀ l : List Char, headNonWs l.reverse = lastNonWs l := by
  intro l
  induction l with
  | nil => rfl
  | cons c t ih =>
    cases t with
    | nil => rfl
    | cons b t' =>
      rw [lastNonWs_cons_of_ne_nil c (by simp)]
      rw [List.reverse_cons, headNonWs_append_left (by simp) [c]]
      exact ih

theorem trimWs_headNonWs (l : List Char) : headNonWs (trimWs l) = true := by
  unfold trimWs
  rw [headNonWs_reverse]
  have hrev : lastNonWs (List.dropWhile isWsp l).reverse = true := by
    rw [← headNonWs_reverse, List.reverse_reverse]
    exact dropWhile_head_false isWsp l
  exact lastNonWs_dropWhile isWsp _ hrev

theorem trimWs_lastNonWs (l : List Char) : lastNonWs (trimWs l) = true := by
  unfold trimWs
  rw [← headNonWs_reverse, List.reverse_reverse]
  exact dropWhile_head_false isWsp _

theorem trimWs_of_norm {l : List Char} (h1 : headNonWs l = true)
    (h2 : lastNonWs l = true) : trimWs l = l := by
  unfold trimWs
  rw [dropWhile_id_of_headNonWs h1]
  rw [dropWhile_id_of_headNonWs (by rw [headNonWs_reverse]; exact h2)]
  exact List.reverse_reverse l

/-! #### `collapseWs` -/

theorem collapse_nil : collapseWs [] = [] := rfl

theorem collapse_single (c : Char) : collapseWs [c] = [c] := rfl

theorem collapse_ne_nil : ∀ l : List Char, l ≠ [] → collapseWs l ≠ [] := by
  intro l hne
  match l with
  | [c] => rw [collapse_single]; simp
  | c₁ :: c₂ :: t =>
    rw [collapseWs_cons₂]
    by_cases h : (isWsp c₁ && isWsp c₂) = true
    · rw [if_pos h]; simp
    · rw [if_neg h]; simp

theorem collapse_head_nonws {c : Char} (h : isWsp c = false) (l : List Char) :
    ∃ t, collapseWs (c :: l) = c :: t := by
  cases l with
  | nil => exact ⟨[], collapse_single c⟩
  | cons c₂ t =>
    rw [collapseWs_cons₂, if_neg (by rw [h]; simp)]
    exact ⟨_, rfl⟩

theorem collapse_headNonWs {l : List Char} (h : headNonWs l = true) :
    headNonWs (collapseWs l) = true := by
  cases l with
  | nil => rfl
  | cons c t =>
    have hc : isWsp c = false := by
      simp only [headNonWs, Bool.not_eq_true'] at h
      exact h
    obtain ⟨t', ht⟩ := collapse_head_nonws hc t
    rw [ht]
    show (!isWsp c) = true
    rw [hc]
    rfl

theorem exists_nonws_of_lastNonWs :
    ∀ l : List Char, l ≠ [] → lastNonWs l = true → ∃ c ∈ l, isWsp c = false := by
  intro l
  induction l with
  | nil => intro h _; exact absurd rfl h
  | cons a t ih =>
    intro _ h
    cases t with
    | nil =>
      refine ⟨a, by simp, ?_⟩
      simp only [lastNonWs, Bool.not_eq_true'] at h
      exact h
    | cons b t' =>
      rw [lastNonWs_cons_of_ne_nil a (by simp)] at h
      obtain ⟨c, hc, hcw⟩ := ih (by simp) h
      exact ⟨c, List.mem_cons_of_mem a hc, hcw⟩

theorem dropWhile_ne_nil_of_lastNonWs {l : List Char} (hne : l ≠ [])
    (h : lastNonWs l = true) : l.dropWhile isWsp ≠ [] := by
  intro hdrop
  rw [List.dropWhile_eq_nil_iff] at hdrop
  obtain ⟨c, hc, hcw⟩ := exists_nonws_of_lastNonWs l hne h
  rw [hdrop c hc] at hcw
  simp at hcw

theorem collapse_noAdj : ∀ l : List Char, noAdjWs (collapseWs l) = true := by
  have key : ∀ (n : Nat) (l : List Char), l.length ≤ n →
      noAdjWs (collapseWs l) = true := by
    intro n
    induction n with
    | zero =>
      intro l h
      have hl : l = [] := List.length_eq_zero.mp (Nat.le_zero.mp h)
      subst hl
      rfl
    | succ n ih =>
      intro l hlen
      match l with
      | [] => rfl
      | [c] => rfl
      | c₁ :: c₂ :: t =>
        simp only [List.length_cons] at hlen
        have hdl := dropWhile_length_le isWsp t
        rw [collapseWs_cons₂]
        by_cases hb : (isWsp c₁ && isWsp c₂) = true
        · rw [if_pos hb]
          cases hd : t.dropWhile isWsp with
          | nil => rfl
          | cons x t' =>
            have hx : isWsp x = false := by
              have := dropWhile_head_false isWsp t
              rw [hd] at this
              simpa [headNonWs] using this
            obtain ⟨t'', ht''⟩ := collapse_head_nonws hx t'
            rw [ht'', noAdjWs_cons₂_eq]
            have hp : (isWsp ' ' && isWsp x) = false := by rw [hx]; simp
            rw [hp]
            simp only [Bool.not_false, Bool.true_and]
            rw [← ht'']
            have hlen' : (x :: t').length ≤ n := by
              rw [← hd]
              omega
            exact ih _ hlen'
        · rw [if_neg hb]
          have hrec := ih (c₂ :: t) (by simp only [List.length_cons]; omega)
          cases hcol : collapseWs (c₂ :: t) with
          | nil => rfl
          | cons x t' =>
            rw [hcol] at hrec
            rw [noAdjWs_cons₂_eq]
            have hp : (isWsp c₁ && isWsp x) = false := by
              by_cases hc1 : isWsp c₁ = true
              · have hc2 : isWsp c₂ = false := by
                  by_contra hc2'
                  rw [Bool.not_eq_false] at hc2'
                  exact hb (by rw [hc1, hc2']; rfl)
                obtain ⟨t₃, ht₃⟩ := collapse_head_nonws hc2 t
                rw [ht₃] at hcol
                injection hcol with hx1 _
                rw [hc1, ← hx1, hc2]
                simp
              · simp only [Bool.not_eq_true] at hc1
                rw [hc1]
                simp
            rw [hp]
            simp only [Bool.not_false, Bool.true_and]
            exact hrec
  intro l
  exact key l.length l (Nat.le_refl _)

theorem collapse_of_noAdj : ∀ l : List Char, noAdjWs l = true → collapseWs l = l := by
  have key : ∀ (n : Nat) (l : List Char), l.length ≤ n → noAdjWs l = true →
      collapseWs l = l := by
    intro n
    induction n with
    | zero =>
      intro l h _
      have hl : l = [] := List.length_eq_zero.mp (Nat.le_zero.mp h)
      subst hl
      rfl
    | succ n ih =>
      intro l hlen hadj
      match l with
      | [] => rfl
      | [c] => rfl
      | c₁ :: c₂ :: t =>
        simp only [List.length_cons] at hlen
        rw [noAdjWs_cons₂_eq, Bool.and_eq_true] at hadj
        obtain ⟨ha1, ha2⟩ := hadj
        have hbf : (isWsp c₁ && isWsp c₂) = false := by
          cases h : (isWsp c₁ && isWsp c₂) with
          | false => rfl
          | true =>
            rw [h] at ha1
            simp at ha1
        rw [collapseWs_cons₂, if_neg (by simp [hbf])]
        rw [ih (c₂ :: t) (by simp only [List.length_cons]; omega) ha2]
  intro l
  exact key l.length l (Nat.le_refl _)

theorem collapse_lastNonWs : ∀ l : List Char, lastNonWs l = true →
    lastNonWs (collapseWs l) = true := by
  have key : ∀ (n : Nat) (l : List Char), l.length ≤ n → lastNonWs l = true →
      lastNonWs (collapseWs l) = true := by
    intro n
    induction n with
    | zero =>
      intro l h _
      have hl : l = [] := List.length_eq_zero.mp (Nat.le_zero.mp h)
      subst hl
      rfl
    | succ n ih =>
      intro l hlen hlast
      match l with
      | [] => rfl
      | [c] => rw [collapse_single]; exact hlast
      | c₁ :: c₂ :: t =>
        simp only [List.length_cons] at hlen
        have hdl := dropWhile_length_le isWsp t
        rw [collapseWs_cons₂]
        by_cases hb : (isWsp c₁ && isWsp c₂) = true
        · rw [if_pos hb]
          have hb' : isWsp c₁ = true ∧ isWsp c₂ = true := by simpa using hb
          have hc2 : isWsp c₂ = true := hb'.2
          have ht_ne : t ≠ [] := by
            intro hte
            subst hte
            simp only [lastNonWs] at hlast
            rw [hc2] at hlast
            simp at hlast
          have hlt : lastNonWs t = true := by
            rw [lastNonWs_cons_of_ne_nil c₁ (by simp),
              lastNonWs_cons_of_ne_nil c₂ ht_ne] at hlast
            exact hlast
          have hdrop_ne : t.dropWhile isWsp ≠ [] :=
            dropWhile_ne_nil_of_lastNonWs ht_ne hlt
          have hX_ne : collapseWs (t.dropWhile isWsp) ≠ [] :=
            collapse_ne_nil _ hdrop_ne
          rw [lastNonWs_cons_of_ne_nil ' ' hX_ne]
          exact ih _ (by omega) (lastNonWs_dropWhile isWsp t hlt)
        · rw [if_neg hb]
          have hX_ne : collapseWs (c₂ :: t) ≠ [] := collapse_ne_nil _ (by simp)
          rw [lastNonWs_cons_of_ne_nil c₁ hX_ne]
          exact ih (c₂ :: t) (by simp only [List.length_cons]; omega)
            (by rw [lastNonWs_cons_of_ne_nil c₁ (by simp)] at hlast; exact hlast)
  intro l
  exact key l.length l (Nat.le_refl _)

/-! #### `stripWsEndPunct` -/

theorem reverse_cons₂_eq (p w : Char) (t : List Char) :
    (p :: w :: t).reverse = t.reverse ++ [w, p] := by
  simp

/-- `stripWsEndPunct` either leaves the (already compliant) list unchanged,
or removes the whitespace of a terminal whitespace-punctuation pair. -/
theorem strip_cases (l : List Char) :
    (stripWsEndPunct l = l ∧ noWsEnd l = true) ∨
    (∃ x w p, l = x ++ [w, p] ∧ isWsp w = true ∧ isEndPunct p = true ∧
      stripWsEndPunct l = x ++ [p]) := by
  unfold stripWsEndPunct
  rcases hrev : l.reverse with _ | ⟨p, _ | ⟨w, t⟩⟩
  · left
    have hl : l = [] := by
      rw [← List.reverse_reverse l, hrev]
      rfl
    subst hl
    exact ⟨rfl, rfl⟩
  · left
    have hl : l = [p] := by
      rw [← List.reverse_reverse l, hrev]
      rfl
    subst hl
    exact ⟨rfl, rfl⟩
  · have hl : l = t.reverse ++ [w, p] := by
      rw [← List.reverse_reverse l, hrev, reverse_cons₂_eq]
    by_cases hc : (isEndPunct p && isWsp w) = true
    · right
      have hc' : isEndPunct p = true ∧ isWsp w = true := by simpa using hc
      refine ⟨t.reverse, w, p, hl, hc'.2, hc'.1, ?_⟩
      show (if (isEndPunct p && isWsp w) = true then (p :: t).reverse else l) =
        t.reverse ++ [p]
      rw [if_pos hc]
      simp
    · left
      constructor
      · show (if (isEndPunct p && isWsp w) = true then (p :: t).reverse else l) = l
        rw [if_neg hc]
      rw [hl, noWsEnd_append_pair]
      cases hw : isWsp w with
      | false => simp
      | true =>
        cases hp : isEndPunct p with
        | false => simp
        | true =>
          exfalso
          apply hc
          rw [hw, hp]
          rfl

theorem noAdjWs_front : ∀ (x y : List Char), noAdjWs (x ++ y) = true →
    noAdjWs x = true := by
  intro x
  induction x with
  | nil => intro _ _; rfl
  | cons a t ih =>
    intro y h
    cases t with
    | nil => rfl
    | cons b t' =>
      rw [List.cons_append, List.cons_append, noAdjWs_cons₂_eq, Bool.and_eq_true] at h
      rw [noAdjWs_cons₂_eq, Bool.and_eq_true]
      exact ⟨h.1, ih y h.2⟩

theorem noAdjWs_suffix : ∀ (x y : List Char), noAdjWs (x ++ y) = true →
    noAdjWs y = true := by
  intro x
  induction x with
  | nil => intro y h; exact h
  | cons a t ih =>
    intro y h
    exact ih y (noAdjWs_tail h)

theorem lastNonWs_of_noAdj_pair : ∀ (x : List Char) (w p : Char),
    noAdjWs (x ++ [w, p]) = true → isWsp w = true → lastNonWs x = true := by
  intro x
  induction x with
  | nil => intro _ _ _ _; rfl
  | cons a t ih =>
    intro w p h hw
    cases t with
    | nil =>
      rw [List.cons_append, List.nil_append, noAdjWs_cons₂_eq, Bool.and_eq_true] at h
      have := h.1
      rw [hw] at this
      simp only [lastNonWs]
      cases ha : isWsp a with
      | false => rfl
      | true =>
        rw [ha] at this
        simp at this
    | cons b t' =>
      rw [lastNonWs_cons_of_ne_nil a (by simp)]
      exact ih w p (noAdjWs_tail (by rw [List.cons_append] at h; exact h)) hw

theorem strip_headNonWs {l : List Char} (hh : headNonWs l = true) :
    headNonWs (stripWsEndPunct l) = true := by
  rcases strip_cases l with ⟨heq, _⟩ | ⟨x, w, p, hl, hw, hp, heq⟩
  · rw [heq]
    exact hh
  · rw [heq]
    cases x with
    | nil =>
      rw [hl] at hh
      simp only [List.nil_append, headNonWs] at hh ⊢
      rw [hw] at hh
      simp at hh
    | cons a t =>
      rw [headNonWs_append_left (by simp) [p]]
      rw [hl, headNonWs_append_left (by simp) [w, p]] at hh
      exact hh

theorem strip_lastNonWs {l : List Char} (hl0 : lastNonWs l = true) :
    lastNonWs (stripWsEndPunct l) = true := by
  rcases strip_cases l with ⟨heq, _⟩ | ⟨x, w, p, hl, hw, hp, heq⟩
  · rw [heq]
    exact hl0
  · rw [heq, lastNonWs_append_singleton, punct_not_ws hp]
    rfl

theorem strip_noAdjWs {l : List Char} (hadj : noAdjWs l = true) :
    noAdjWs (stripWsEndPunct l) = true := by
  rcases strip_cases l with ⟨heq, _⟩ | ⟨x, w, p, hl, hw, hp, heq⟩
  · rw [heq]
    exact hadj
  · rw [heq]
    rw [hl] at hadj
    exact noAdjWs_append_singleton (noAdjWs_front x [w, p] hadj) (punct_not_ws hp)

theorem strip_noWsEnd {l : List Char} (hadj : noAdjWs l = true) :
    noWsEnd (stripWsEndPunct l) = true := by
  rcases strip_cases l with ⟨heq, hn⟩ | ⟨x, w, p, hl, hw, hp, heq⟩
  · rw [heq]
    exact hn
  · rw [heq]
    rw [hl] at hadj
    exact noWsEnd_append_singleton_of_lastNonWs p (lastNonWs_of_noAdj_pair x w p hadj hw)

theorem strip_of_noWsEnd {l : List Char} (h : noWsEnd l = true) :
    stripWsEndPunct l = l := by
  rcases strip_cases l with ⟨heq, _⟩ | ⟨x, w, p, hl, hw, hp, heq⟩
  · exact heq
  · exfalso
    rw [hl, noWsEnd_append_pair, hw, hp] at h
    simp at h

/-! #### `quoteFix` -/

theorem curly_cases {c : Char} (h : (c == '“' || c == '”') = true) :
    c = '“' ∨ c = '”' := by
  simpa using h

theorem ws_quoteFix (c : Char) : isWsp (quoteFix c) = isWsp c := by
  unfold quoteFix
  by_cases h : (c == '“' || c == '”') = true
  · rw [if_pos h]
    rcases curly_cases h with h' | h' <;> subst h' <;> decide
  · rw [if_neg h]

theorem punct_quoteFix (c : Char) : isEndPunct (quoteFix c) = isEndPunct c := by
  unfold quoteFix
  by_cases h : (c == '“' || c == '”') = true
  · rw [if_pos h]
    rcases curly_cases h with h' | h' <;> subst h' <;> decide
  · rw [if_neg h]

theorem digit_quoteFix (c : Char) : isDigitCh (quoteFix c) = isDigitCh c := by
  unfold quoteFix
  by_cases h : (c == '“' || c == '”') = true
  · rw [if_pos h]
    rcases curly_cases h with h' | h' <;> subst h' <;> decide
  · rw [if_neg h]

theorem pctEq_quoteFix (c : Char) : (quoteFix c == '%') = (c == '%') := by
  unfold quoteFix
  by_cases h : (c == '“' || c == '”') = true
  · rw [if_pos h]
    rcases curly_cases h with h' | h' <;> subst h' <;> decide
  · rw [if_neg h]

theorem notCurly_quoteFix (c : Char) :
    ((quoteFix c == '“') || (quoteFix c == '”')) = false := by
  unfold quoteFix
  by_cases h : (c == '“' || c == '”') = true
  · rw [if_pos h]
    decide
  · rw [if_neg h]
    simpa using h

theorem headNonWs_map_quoteFix (l : List Char) :
    headNonWs (l.map quoteFix) = headNonWs l := by
  cases l with
  | nil => rfl
  | cons c t =>
    show (!isWsp (quoteFix c)) = !isWsp c
    rw [ws_quoteFix]

theorem lastNonWs_map_quoteFix : ∀ l : List Char,
    lastNonWs (l.map quoteFix) = lastNonWs l := by
  intro l
  induction l with
  | nil => rfl
  | cons c t ih =>
    cases t with
    | nil =>
      show (!isWsp (quoteFix c)) = !isWsp c
      rw [ws_quoteFix]
    | cons b t' =>
      rw [List.map_cons, lastNonWs_cons_of_ne_nil _ (by simp),
        lastNonWs_cons_of_ne_nil _ (by simp)]
      exact ih

theorem noAdjWs_map_quoteFix : ∀ l : List Char,
    noAdjWs (l.map quoteFix) = noAdjWs l := by
  intro l
  induction l with
  | nil => rfl
  | cons c t ih =>
    cases t with
    | nil => rfl
    | cons b t' =>
      rw [List.map_cons, List.map_cons, noAdjWs_cons₂_eq, noAdjWs_cons₂_eq,
        ws_quoteFix, ws_quoteFix, ← List.map_cons]
      rw [ih]

theorem noWsEnd_map_quoteFix : ∀ l : List Char,
    noWsEnd (l.map quoteFix) = noWsEnd l := by
  intro l
  induction l with
  | nil => rfl
  | cons c t ih =>
    match t with
    | [] => rfl
    | [b] =>
      show (!(isWsp (quoteFix c) && isEndPunct (quoteFix b))) = !(isWsp c && isEndPunct b)
      rw [ws_quoteFix, punct_quoteFix]
    | b :: b' :: t' =>
      rw [List.map_cons, noWsEnd_cons_of_len2 _ (by simp), noWsEnd_cons_of_len2 _ (by simp)]
      exact ih

theorem noCurly_map_quoteFix (l : List Char) : noCurly (l.map quoteFix) = true := by
  induction l with
  | nil => rfl
  | cons c t ih =>
    unfold noCurly at ih ⊢
    rw [List.map_cons, List.all_cons, ih, notCurly_quoteFix]
    rfl

theorem map_quoteFix_of_noCurly : ∀ l : List Char, noCurly l = true →
    l.map quoteFix = l := by
  intro l
  induction l with
  | nil => intro _; rfl
  | cons c t ih =>
    intro h
    unfold noCurly at h
    rw [List.all_cons, Bool.and_eq_true] at h
    rw [List.map_cons, ih h.2]
    have hc : quoteFix c = c := by
      have h1 : (c == '“' || c == '”') = false := by
        cases hcc : (c == '“' || c == '”') with
        | false => rfl
        | true =>
          have h2 := h.1
          rw [hcc] at h2
          simp at h2
      unfold quoteFix
      rw [if_neg (by simp [h1])]
    rw [hc]

theorem noDigPct_map_quoteFix : ∀ l : List Char,
    noDigPct (l.map quoteFix) = noDigPct l := by
  intro l
  induction l with
  | nil => rfl
  | cons c t ih =>
    cases t with
    | nil => rfl
    | cons b t' =>
      rw [List.map_cons, List.map_cons, noDigPct_cons₂_eq, noDigPct_cons₂_eq,
        digit_quoteFix, pctEq_quoteFix, ← List.map_cons]
      rw [ih]

/-! #### `pctSpace` -/

theorem pctSpace_cons₂ (c₁ c₂ : Char) (t : List Char) :
    pctSpace (c₁ :: c₂ :: t) =
      if isDigitCh c₁ && c₂ == '%' then c₁ :: ' ' :: '%' :: pctSpace t
      else c₁ :: pctSpace (c₂ :: t) := rfl

theorem pct_head (c : Char) : ∀ l : List Char, ∃ t, pctSpace (c :: l) = c :: t := by
  intro l
  cases l with
  | nil => exact ⟨[], rfl⟩
  | cons c₂ t =>
    rw [pctSpace_cons₂]
    by_cases h : (isDigitCh c && c₂ == '%') = true
    · rw [if_pos h]
      exact ⟨_, rfl⟩
    · rw [if_neg h]
      exact ⟨_, rfl⟩

theorem pct_ne_nil {l : List Char} (h : l ≠ []) : pctSpace l ≠ [] := by
  cases l with
  | nil => exact absurd rfl h
  | cons c t =>
    obtain ⟨t', ht⟩ := pct_head c t
    rw [ht]
    simp

theorem noDigPct_cons_of_nondigit {a : Char} (h : isDigitCh a = false)
    (t : List Char) : noDigPct (a :: t) = noDigPct t := by
  cases t with
  | nil => rfl
  | cons b t' =>
    rw [noDigPct_cons₂_eq, h]
    simp

theorem noDigPct_cons₂_of_notpct {b : Char} (h : (b == '%') = false)
    (a : Char) (t : List Char) : noDigPct (a :: b :: t) = noDigPct (b :: t) := by
  rw [noDigPct_cons₂_eq, h]
  simp

theorem noAdjWs_cons_of_nonws {a : Char} (h : isWsp a = false) (t : List Char) :
    noAdjWs (a :: t) = noAdjWs t := by
  cases t with
  | nil => rfl
  | cons b t' =>
    rw [noAdjWs_cons₂_eq, h]
    simp

theorem pct_of_noDigPct : ∀ l : List Char, noDigPct l = true → pctSpace l = l := by
  have key : ∀ (n : Nat) (l : List Char), l.length ≤ n → noDigPct l = true →
      pctSpace l = l := by
    intro n
    induction n with
    | zero =>
      intro l h _
      have hl : l = [] := List.length_eq_zero.mp (Nat.le_zero.mp h)
      subst hl
      rfl
    | succ n ih =>
      intro l hlen hnd
      match l with
      | [] => rfl
      | [c] => rfl
      | c₁ :: c₂ :: t =>
        simp only [List.length_cons] at hlen
        rw [noDigPct_cons₂_eq, Bool.and_eq_true] at hnd
        have hcond : (isDigitCh c₁ && c₂ == '%') = false := by
          cases hcc : (isDigitCh c₁ && c₂ == '%') with
          | false => rfl
          | true =>
            have h2 := hnd.1
            rw [hcc] at h2
            simp at h2
        rw [pctSpace_cons₂, if_neg (by simp [hcond])]
        rw [ih (c₂ :: t) (by simp only [List.length_cons]; omega) hnd.2]
  intro l
  exact key l.length l (Nat.le_refl _)

theorem pct_noDigPct : ∀ l : List Char, noDigPct (pctSpace l) = true := by
  have key : ∀ (n : Nat) (l : List Char), l.length ≤ n →
      noDigPct (pctSpace l) = true := by
    intro n
    induction n with
    | zero =>
      intro l h
      have hl : l = [] := List.length_eq_zero.mp (Nat.le_zero.mp h)
      subst hl
      rfl
    | succ n ih =>
      intro l hlen
      match l with
      | [] => rfl
      | [c] => rfl
      | c₁ :: c₂ :: t =>
        simp only [List.length_cons] at hlen
        rw [pctSpace_cons₂]
        by_cases hb : (isDigitCh c₁ && c₂ == '%') = true
        · rw [if_pos hb]
          rw [noDigPct_cons₂_of_notpct (by decide) c₁]
          rw [noDigPct_cons_of_nondigit (by decide)]
          rw [noDigPct_cons_of_nondigit (by decide)]
          exact ih t (by omega)
        · rw [if_neg hb]
          obtain ⟨t₂, ht₂⟩ := pct_head c₂ t
          rw [ht₂, noDigPct_cons₂_eq]
          have hp : (isDigitCh c₁ && c₂ == '%') = false := by
            cases hcc : (isDigitCh c₁ && c₂ == '%') with
            | false => rfl
            | true => exact absurd hcc hb
          rw [hp]
          simp only [Bool.not_false, Bool.true_and]
          rw [← ht₂]
          exact ih (c₂ :: t) (by simp only [List.length_cons]; omega)
  intro l
  exact key l.length l (Nat.le_refl _)

theorem pct_headNonWs {l : List Char} (h : headNonWs l = true) :
    headNonWs (pctSpace l) = true := by
  cases l with
  | nil => rfl
  | cons c t =>
    obtain ⟨t', ht⟩ := pct_head c t
    rw [ht]
    exact h

theorem pct_lastNonWs : ∀ l : List Char, lastNonWs l = true →
    lastNonWs (pctSpace l) = true := by
  have key : ∀ (n : Nat) (l : List Char), l.length ≤ n → lastNonWs l = true →
      lastNonWs (pctSpace l) = true := by
    intro n
    induction n with
    | zero =>
      intro l h _
      have hl : l = [] := List.length_eq_zero.mp (Nat.le_zero.mp h)
      subst hl
      rfl
    | succ n ih =>
      intro l hlen hlast
      match l with
      | [] => rfl
      | [c] => exact hlast
      | c₁ :: c₂ :: t =>
        simp only [List.length_cons] at hlen
        rw [pctSpace_cons₂]
        by_cases hb : (isDigitCh c₁ && c₂ == '%') = true
        · rw [if_pos hb]
          cases t with
          | nil =>
            rw [lastNonWs_cons_of_ne_nil c₁ (by simp)]
            decide
          | cons x t' =>
            have hpt : pctSpace (x :: t') ≠ [] := pct_ne_nil (by simp)
            rw [lastNonWs_cons_of_ne_nil c₁ (by simp),
              lastNonWs_cons_of_ne_nil ' ' (by simp),
              lastNonWs_cons_of_ne_nil '%' hpt]
            have hlt : lastNonWs (x :: t') = true := by
              rw [lastNonWs_cons_of_ne_nil c₁ (by simp),
                lastNonWs_cons_of_ne_nil c₂ (by simp)] at hlast
              exact hlast
            have hlen2 : t'.length + 1 + 1 + 1 ≤ n + 1 := by simpa using hlen
            exact ih (x :: t') (by simp only [List.length_cons]; omega) hlt
        · rw [if_neg hb]
          have hpt : pctSpace (c₂ :: t) ≠ [] := pct_ne_nil (by simp)
          rw [lastNonWs_cons_of_ne_nil c₁ hpt]
          exact ih (c₂ :: t) (by simp only [List.length_cons]; omega)
            (by rw [lastNonWs_cons_of_ne_nil c₁ (by simp)] at hlast; exact hlast)
  intro l
  exact key l.length l (Nat.le_refl _)

theorem pct_noAdjWs : ∀ l : List Char, noAdjWs l = true →
    noAdjWs (pctSpace l) = true := by
  have key : ∀ (n : Nat) (l : List Char), l.length ≤ n → noAdjWs l = true →
      noAdjWs (pctSpace l) = true := by
    intro n
    induction n with
    | zero =>
      intro l h _
      have hl : l = [] := List.length_eq_zero.mp (Nat.le_zero.mp h)
      subst hl
      rfl
    | succ n ih =>
      intro l hlen hadj
      match l with
      | [] => rfl
      | [c] => rfl
      | c₁ :: c₂ :: t =>
        simp only [List.length_cons] at hlen
        rw [pctSpace_cons₂]
        by_cases hb : (isDigitCh c₁ && c₂ == '%') = true
        · rw [if_pos hb]
          have hd : isDigitCh c₁ = true := (by simpa using hb : _ ∧ _).1
          rw [noAdjWs_cons_of_nonws (digit_not_ws hd)]
          rw [noAdjWs_cons₂_eq]
          have hsp : (isWsp ' ' && isWsp '%') = false := by decide
          rw [hsp]
          simp only [Bool.not_false, Bool.true_and]
          rw [noAdjWs_cons_of_nonws (by decide)]
          have ht : noAdjWs t = true := noAdjWs_tail (noAdjWs_tail hadj)
          exact ih t (by omega) ht
        · rw [if_neg hb]
          obtain ⟨t₂, ht₂⟩ := pct_head c₂ t
          rw [ht₂, noAdjWs_cons₂_eq]
          rw [noAdjWs_cons₂_eq, Bool.and_eq_true] at hadj
          rw [Bool.and_eq_true]
          refine ⟨hadj.1, ?_⟩
          rw [← ht₂]
          exact ih (c₂ :: t) (by simp only [List.length_cons]; omega) hadj.2
  intro l
  exact key l.length l (Nat.le_refl _)

theorem pct_noCurly : ∀ l : List Char, noCurly l = true →
    noCurly (pctSpace l) = true := by
  have key : ∀ (n : Nat) (l : List Char), l.length ≤ n → noCurly l = true →
      noCurly (pctSpace l) = true := by
    intro n
    induction n with
    | zero =>
      intro l h _
      have hl : l = [] := List.length_eq_zero.mp (Nat.le_zero.mp h)
      subst hl
      rfl
    | succ n ih =>
      intro l hlen hnc
      match l with
      | [] => rfl
      | [c] => exact hnc
      | c₁ :: c₂ :: t =>
        simp only [List.length_cons] at hlen
        unfold noCurly at hnc ⊢
        rw [List.all_cons, List.all_cons, Bool.and_eq_true, Bool.and_eq_true] at hnc
        rw [pctSpace_cons₂]
        by_cases hb : (isDigitCh c₁ && c₂ == '%') = true
        · rw [if_pos hb]
          rw [List.all_cons, List.all_cons, List.all_cons]
          rw [hnc.1]
          have h1 : (!(' ' == '“' || ' ' == '”')) = true := by decide
          have h2 : (!('%' == '“' || '%' == '”')) = true := by decide
          rw [h1, h2]
          have := ih t (by omega) hnc.2.2
          unfold noCurly at this
          rw [this]
          rfl
        · rw [if_neg hb]
          rw [List.all_cons, hnc.1]
          have := ih (c₂ :: t) (by simp only [List.length_cons]; omega)
            (by unfold noCurly; rw [List.all_cons, Bool.and_eq_true]; exact hnc.2)
          unfold noCurly at this
          rw [this]
          rfl
  intro l
  exact key l.length l (Nat.le_refl _)

theorem pct_len2 {c₂ : Char} {t : List Char} (h : t ≠ []) :
    ∃ t₂, pctSpace (c₂ :: t) = c₂ :: t₂ ∧ t₂ ≠ [] := by
  cases t with
  | nil => exact absurd rfl h
  | cons y t' =>
    rw [pctSpace_cons₂]
    by_cases hb : (isDigitCh c₂ && y == '%') = true
    · rw [if_pos hb]
      exact ⟨_, rfl, by simp⟩
    · rw [if_neg hb]
      exact ⟨_, rfl, pct_ne_nil (by simp)⟩

theorem pct_noWsEnd : ∀ l : List Char, noWsEnd l = true →
    noWsEnd (pctSpace l) = true := by
  have key : ∀ (n : Nat) (l : List Char), l.length ≤ n → noWsEnd l = true →
      noWsEnd (pctSpace l) = true := by
    intro n
    induction n with
    | zero =>
      intro l h _
      have hl : l = [] := List.length_eq_zero.mp (Nat.le_zero.mp h)
      subst hl
      rfl
    | succ n ih =>
      intro l hlen hwe
      match l with
      | [] => rfl
      | [c] => rfl
      | c₁ :: c₂ :: t =>
        simp only [List.length_cons] at hlen
        rw [pctSpace_cons₂]
        by_cases hb : (isDigitCh c₁ && c₂ == '%') = true
        · rw [if_pos hb]
          cases t with
          | nil =>
            show noWsEnd [c₁, ' ', '%'] = true
            rw [noWsEnd_cons_of_len2 c₁ (by simp)]
            decide
          | cons x t' =>
            obtain ⟨t₂, ht₂⟩ := pct_head x t'
            rw [ht₂]
            rw [noWsEnd_cons_of_len2 c₁ (by simp), noWsEnd_cons_of_len2 ' ' (by simp)]
            have hlen2 : t'.length + 1 + 1 + 1 ≤ n + 1 := by simpa using hlen
            cases ht₂e : t₂ with
            | nil =>
              show (!(isWsp '%' && isEndPunct x)) = true
              have hpw : isWsp '%' = false := by decide
              rw [hpw]
              simp
            | cons z t₃ =>
              rw [noWsEnd_cons_of_len2 '%' (by simp)]
              rw [← ht₂e, ← ht₂]
              refine ih (x :: t') (by simp only [List.length_cons]; omega) ?_
              cases t' with
              | nil => rfl
              | cons z' t'' =>
                rw [noWsEnd_cons_of_len2 c₁ (by simp), noWsEnd_cons_of_len2 c₂ (by simp)]
                  at hwe
                exact hwe
        · rw [if_neg hb]
          cases t with
          | nil => exact hwe
          | cons y t' =>
            obtain ⟨t₂, ht₂, ht₂ne⟩ := pct_len2 (t := y :: t') (by simp)
            rw [ht₂]
            rw [noWsEnd_cons_of_len2 c₁ (by
              cases t₂ with
              | nil => exact absurd rfl ht₂ne
              | cons _ _ => simp)]
            rw [← ht₂]
            have hlen2 : t'.length + 1 + 1 + 1 ≤ n + 1 := by simpa using hlen
            exact ih (c₂ :: y :: t') (by simp only [List.length_cons]; omega)
              (by rw [noWsEnd_cons_of_len2 c₁ (by simp)] at hwe; exact hwe)
  intro l
  exact key l.length l (Nat.le_refl _)

/-! #### `format_text` produces and fixes the normal form -/

theorem normChars_iff (l : List Char) : normChars l = true ↔
    headNonWs l = true ∧ lastNonWs l = true ∧ noAdjWs l = true ∧
    noWsEnd l = true ∧ noCurly l = true ∧ noDigPct l = true := by
  unfold normChars
  simp [Bool.and_eq_true, and_assoc]

theorem formatTextChars_norm (l : List Char) : normChars (formatTextChars l) = true := by
  have h1h := trimWs_headNonWs l
  have h1l := trimWs_lastNonWs l
  have h2h := collapse_headNonWs h1h
  have h2l := collapse_lastNonWs _ h1l
  have h2adj := collapse_noAdj (trimWs l)
  have h3h := strip_headNonWs h2h
  have h3l := strip_lastNonWs h2l
  have h3adj := strip_noAdjWs h2adj
  have h3we := strip_noWsEnd h2adj
  have h4h : headNonWs ((stripWsEndPunct (collapseWs (trimWs l))).map quoteFix) = true := by
    rw [headNonWs_map_quoteFix]
    exact h3h
  have h4l : lastNonWs ((stripWsEndPunct (collapseWs (trimWs l))).map quoteFix) = true := by
    rw [lastNonWs_map_quoteFix]
    exact h3l
  have h4adj : noAdjWs ((stripWsEndPunct (collapseWs (trimWs l))).map quoteFix) = true := by
    rw [noAdjWs_map_quoteFix]
    exact h3adj
  have h4we : noWsEnd ((stripWsEndPunct (collapseWs (trimWs l))).map quoteFix) = true := by
    rw [noWsEnd_map_quoteFix]
    exact h3we
  have h4c := noCurly_map_quoteFix (stripWsEndPunct (collapseWs (trimWs l)))
  rw [normChars_iff]
  unfold formatTextChars
  exact ⟨pct_headNonWs h4h, pct_lastNonWs _ h4l, pct_noAdjWs _ h4adj,
    pct_noWsEnd _ h4we, pct_noCurly _ h4c, pct_noDigPct _⟩

theorem formatTextChars_of_norm {l : List Char} (h : normChars l = true) :
    formatTextChars l = l := by
  rw [normChars_iff] at h
  obtain ⟨hh, hl, hadj, hwe, hc, hd⟩ := h
  unfold formatTextChars
  rw [trimWs_of_norm hh hl, collapse_of_noAdj _ hadj, strip_of_noWsEnd hwe,
    map_quoteFix_of_noCurly _ hc, pct_of_noDigPct _ hd]

theorem format_text_data (s : String) : (format_text s).data = formatTextChars s.data :=
  rfl

theorem format_text_norm (s : String) : normChars (format_text s).data = true :=
  formatTextChars_norm s.data

theorem format_text_of_norm {s : String} (h : normChars s.data = true) :
    format_text s = s := by
  cases s with
  | mk d =>
    show (⟨formatTextChars d⟩ : String) = ⟨d⟩
    rw [formatTextChars_of_norm h]

theorem format_text_idem (s : String) : format_text (format_text s) = format_text s :=
  format_text_of_norm (format_text_norm s)

/-! #### The option text pipeline: `ensure_text_ends_with_period` and
`capitalize_first_char` preserve the normal form -/

theorem toNat_ofNat_lt {n : Nat} (h : n < 0xD800) : (Char.ofNat n).toNat = n := by
  have hv : n.isValidChar := Or.inl h
  simp [Char.ofNat, Char.toNat, hv, Char.ofNatAux, UInt32.toNat]

theorem isWsp_false_of_mid {c : Char} (h1 : 33 ≤ c.toNat) (h2 : c.toNat ≤ 132) :
    isWsp c = false := by
  simp only [isWsp, Bool.or_eq_false_iff, Bool.and_eq_false_iff,
    decide_eq_false_iff_not, beq_eq_false_iff_ne, ne_eq]
  omega

theorem isDigitCh_false_of_ge {c : Char} (h : 58 ≤ c.toNat) : isDigitCh c = false := by
  simp only [isDigitCh, Bool.and_eq_false_iff, decide_eq_false_iff_not]
  omega

theorem char_beq_false_of_toNat_ne {c d : Char} (h : ¬ c.toNat = d.toNat) :
    (c == d) = false := by
  rw [beq_eq_false_iff_ne]
  intro he
  exact h (by rw [he])

theorem upperAscii_toNat_in {c : Char} (hr : (97 ≤ c.toNat && c.toNat ≤ 122) = true) :
    (upperAscii c).toNat = c.toNat - 32 := by
  unfold upperAscii
  rw [if_pos hr]
  have hb := hr
  rw [Bool.and_eq_true, decide_eq_true_eq, decide_eq_true_eq] at hb
  exact toNat_ofNat_lt (by omega)

theorem upperAscii_out {c : Char} (hr : ¬ (97 ≤ c.toNat && c.toNat ≤ 122) = true) :
    upperAscii c = c := by
  unfold upperAscii
  rw [if_neg hr]

theorem upperAscii_toNat_lt {c : Char} (h : c.toNat < 128) :
    (upperAscii c).toNat < 128 := by
  by_cases hr : (97 ≤ c.toNat && c.toNat ≤ 122) = true
  · have hb := hr
    rw [Bool.and_eq_true, decide_eq_true_eq, decide_eq_true_eq] at hb
    rw [upperAscii_toNat_in hr]
    omega
  · rw [upperAscii_out hr]
    exact h

theorem upperAscii_key (c : Char) :
    isWsp (upperAscii c) = isWsp c ∧ isDigitCh (upperAscii c) = isDigitCh c ∧
    ((upperAscii c == '“') || (upperAscii c == '”')) =
      ((c == '“') || (c == '”')) := by
  by_cases hr : (97 ≤ c.toNat && c.toNat ≤ 122) = true
  · have hb := hr
    rw [Bool.and_eq_true, decide_eq_true_eq, decide_eq_true_eq] at hb
    have ht := upperAscii_toNat_in hr
    have hq1 : ('“' : Char).toNat = 8220 := by decide
    have hq2 : ('”' : Char).toNat = 8221 := by decide
    refine ⟨?_, ?_, ?_⟩
    · rw [isWsp_false_of_mid (c := upperAscii c) (by omega) (by omega),
        isWsp_false_of_mid (c := c) (by omega) (by omega)]
    · rw [isDigitCh_false_of_ge (c := upperAscii c) (by omega),
        isDigitCh_false_of_ge (c := c) (by omega)]
    · rw [char_beq_false_of_toNat_ne (c := upperAscii c) (d := '“') (by omega),
        char_beq_false_of_toNat_ne (c := upperAscii c) (d := '”') (by omega),
        char_beq_false_of_toNat_ne (c := c) (d := '“') (by omega),
        char_beq_false_of_toNat_ne (c := c) (d := '”') (by omega)]
  · rw [upperAscii_out hr]
    exact ⟨rfl, rfl, rfl⟩

theorem upperAscii_idem (c : Char) : upperAscii (upperAscii c) = upperAscii c := by
  by_cases hr : (97 ≤ c.toNat && c.toNat ≤ 122) = true
  · have hb := hr
    rw [Bool.and_eq_true, decide_eq_true_eq, decide_eq_true_eq] at hb
    have ht := upperAscii_toNat_in hr
    have hout : ¬ (97 ≤ (upperAscii c).toNat && (upperAscii c).toNat ≤ 122) = true := by
      rw [Bool.and_eq_true, decide_eq_true_eq, decide_eq_true_eq]
      omega
    exact upperAscii_out hout
  · have hu := upperAscii_out hr
    rw [hu]
    exact hu

theorem normChars_cons_congr {c u : Char} (hw : isWsp u = isWsp c)
    (hd : isDigitCh u = isDigitCh c)
    (hq : ((u == '“') || (u == '”')) = ((c == '“') || (c == '”'))) :
    ∀ t : List Char, normChars (u :: t) = normChars (c :: t) := by
  intro t
  unfold normChars
  have e1 : headNonWs (u :: t) = headNonWs (c :: t) := by
    show (!isWsp u) = !isWsp c
    rw [hw]
  have e2 : lastNonWs (u :: t) = lastNonWs (c :: t) := by
    cases t with
    | nil =>
      show (!isWsp u) = !isWsp c
      rw [hw]
    | cons b t' =>
      rw [lastNonWs_cons_of_ne_nil u (by simp), lastNonWs_cons_of_ne_nil c (by simp)]
  have e3 : noAdjWs (u :: t) = noAdjWs (c :: t) := by
    cases t with
    | nil => rfl
    | cons b t' => rw [noAdjWs_cons₂_eq, noAdjWs_cons₂_eq, hw]
  have e4 : noWsEnd (u :: t) = noWsEnd (c :: t) := by
    cases t with
    | nil => rfl
    | cons b t' =>
      cases t' with
      | nil =>
        show (!(isWsp u && isEndPunct b)) = !(isWsp c && isEndPunct b)
        rw [hw]
      | cons b' t'' =>
        rw [noWsEnd_cons_of_len2 u (by simp), noWsEnd_cons_of_len2 c (by simp)]
  have e5 : noCurly (u :: t) = noCurly (c :: t) := by
    unfold noCurly
    simp only [List.all_cons]
    rw [hq]
  have e6 : noDigPct (u :: t) = noDigPct (c :: t) := by
    cases t with
    | nil => rfl
    | cons b t' => rw [noDigPct_cons₂_eq, noDigPct_cons₂_eq, hd]
  rw [e1, e2, e3, e4, e5, e6]

theorem capitalize_data_nil {s : String} (h : s.data = []) :
    capitalize_first_char s = s := by
  unfold capitalize_first_char
  rw [h]

theorem capitalize_cons {s : String} {c : Char} {t : List Char} (h : s.data = c :: t) :
    capitalize_first_char s = if c.toNat < 128 then ⟨upperAscii c :: t⟩ else s := by
  unfold capitalize_first_char
  rw [h]

theorem capitalize_norm {s : String} (h : normChars s.data = true) :
    normChars (capitalize_first_char s).data = true := by
  cases hd : s.data with
  | nil =>
    rw [capitalize_data_nil hd]
    exact h
  | cons c t =>
    rw [capitalize_cons hd]
    by_cases hc : c.toNat < 128
    · rw [if_pos hc]
      show normChars (upperAscii c :: t) = true
      rw [hd] at h
      obtain ⟨h1, h2, h3⟩ := upperAscii_key c
      rw [normChars_cons_congr h1 h2 h3]
      exact h
    · rw [if_neg hc]
      exact h

theorem capitalize_getLast {s : String} (h : s.data.getLast? = some '.') :
    (capitalize_first_char s).data.getLast? = some '.' := by
  cases hd : s.data with
  | nil =>
    rw [hd] at h
    exact absurd h (by simp)
  | cons c t =>
    rw [capitalize_cons hd]
    by_cases hc : c.toNat < 128
    · rw [if_pos hc]
      show (upperAscii c :: t).getLast? = some '.'
      rw [hd] at h
      cases t with
      | nil =>
        have hcd : c = '.' := by simpa using h
        subst hcd
        decide
      | cons b t' =>
        rw [List.getLast?_cons_cons]
        rw [List.getLast?_cons_cons] at h
        exact h
    · rw [if_neg hc]
      exact h

theorem capitalize_data_length (s : String) :
    (capitalize_first_char s).data.length = s.data.length := by
  cases hd : s.data with
  | nil =>
    rw [capitalize_data_nil hd, hd]
  | cons c t =>
    rw [capitalize_cons hd]
    by_cases hc : c.toNat < 128
    · rw [if_pos hc]
      show (upperAscii c :: t).length = (c :: t).length
      rfl
    · rw [if_neg hc, hd]

theorem capitalize_idem (s : String) :
    capitalize_first_char (capitalize_first_char s) = capitalize_first_char s := by
  cases hd : s.data with
  | nil =>
    rw [capitalize_data_nil hd, capitalize_data_nil hd]
  | cons c t =>
    rw [capitalize_cons hd]
    by_cases hc : c.toNat < 128
    · rw [if_pos hc]
      rw [capitalize_cons (s := (⟨upperAscii c :: t⟩ : String)) rfl]
      rw [if_pos (upperAscii_toNat_lt hc)]
      rw [upperAscii_idem]
    · rw [if_neg hc, capitalize_cons hd, if_neg hc]

theorem ensurePeriod_getLast (t : String) :
    (ensurePeriod t).data.getLast? = some '.' := by
  unfold ensurePeriod
  by_cases h : t.data.getLast? = some '.'
  · rw [if_pos h]
    exact h
  · rw [if_neg h]
    show (t.data ++ ['.']).getLast? = some '.'
    simp [List.getLast?_concat]

theorem ensurePeriod_of_getLast {t : String} (h : t.data.getLast? = some '.') :
    ensurePeriod t = t := by
  unfold ensurePeriod
  rw [if_pos h]

theorem ensurePeriod_norm {t : String} (h : normChars t.data = true) :
    normChars (ensurePeriod t).data = true := by
  unfold ensurePeriod
  by_cases hl : t.data.getLast? = some '.'
  · rw [if_pos hl]
    exact h
  · rw [if_neg hl]
    show normChars (t.data ++ ['.']) = true
    rw [normChars_iff] at h ⊢
    obtain ⟨h1, h2, h3, h4, h5, h6⟩ := h
    refine ⟨?_, ?_, noAdjWs_append_singleton h3 (by decide), ?_,
      noCurly_append_singleton h5 (by decide), noDigPct_append_singleton h6 (by decide)⟩
    · cases hd : t.data with
      | nil => decide
      | cons a t' =>
        rw [headNonWs_append_left (by simp)]
        rw [hd] at h1
        exact h1
    · rw [lastNonWs_append_singleton]
      decide
    · exact noWsEnd_append_singleton_of_lastNonWs '.' h2

theorem isEmpty_iff_data_nil (s : String) : s.isEmpty = true ↔ s.data = [] := by
  rw [String.isEmpty_iff]
  constructor
  · intro h
    rw [h]
  · intro h
    apply String.ext
    rw [h]

theorem isEmpty_false_of_data_ne {s : String} (h : s.data ≠ []) :
    s.isEmpty = false := by
  rw [Bool.eq_false_iff]
  intro hh
  exact h ((isEmpty_iff_data_nil s).mp hh)

/-! #### Idempotence of the whole option text pipeline -/

theorem format_text_empty : format_text "" = "" := rfl

theorem formatOptionText_eq (pc : Bool) (s : String) :
    formatOptionText pc s =
      if pc = true then
        (if (format_text s).isEmpty = true then format_text s
          else ensurePeriod (format_text s))
      else capitalize_first_char
        (if (format_text s).isEmpty = true then format_text s
          else ensurePeriod (format_text s)) := rfl

theorem formatOptionText_norm (pc : Bool) (s : String) :
    normChars (formatOptionText pc s).data = true := by
  rw [formatOptionText_eq]
  have hbase : normChars (if (format_text s).isEmpty = true then format_text s
      else ensurePeriod (format_text s)).data = true := by
    by_cases he : (format_text s).isEmpty = true
    · rw [if_pos he]
      exact format_text_norm s
    · rw [if_neg he]
      exact ensurePeriod_norm (format_text_norm s)
  cases pc with
  | true =>
    rw [if_pos rfl]
    exact hbase
  | false =>
    rw [if_neg Bool.false_ne_true]
    exact capitalize_norm hbase

theorem formatOptionText_empty_or_period (pc : Bool) (s : String) :
    (formatOptionText pc s).data = [] ∨
      (formatOptionText pc s).data.getLast? = some '.' := by
  rw [formatOptionText_eq]
  by_cases he : (format_text s).isEmpty = true
  · left
    rw [if_pos he]
    have hd := (isEmpty_iff_data_nil _).mp he
    cases pc with
    | true =>
      rw [if_pos rfl]
      exact hd
    | false =>
      rw [if_neg Bool.false_ne_true, capitalize_data_nil hd]
      exact hd
  · right
    rw [if_neg he]
    cases pc with
    | true =>
      rw [if_pos rfl]
      exact ensurePeriod_getLast _
    | false =>
      rw [if_neg Bool.false_ne_true]
      exact capitalize_getLast (ensurePeriod_getLast _)

theorem formatOptionText_capitalized (s : String) :
    capitalize_first_char (formatOptionText false s) = formatOptionText false s := by
  rw [formatOptionText_eq false s, if_neg Bool.false_ne_true]
  exact capitalize_idem _

theorem formatOptionText_of_empty (pc : Bool) : formatOptionText pc "" = "" := by
  cases pc with
  | true => rfl
  | false => rfl

theorem formatOptionText_idem (pc : Bool) (s : String) :
    formatOptionText pc (formatOptionText pc s) = formatOptionText pc s := by
  have hn := formatOptionText_norm pc s
  rcases formatOptionText_empty_or_period pc s with hc | hc
  · have hs : formatOptionText pc s = "" := by
      apply String.ext
      rw [hc]
    rw [hs, formatOptionText_of_empty]
  · have hne : (formatOptionText pc s).data ≠ [] := by
      intro hnil
      rw [hnil] at hc
      exact absurd hc (by simp)
    rw [formatOptionText_eq pc (formatOptionText pc s)]
    rw [format_text_of_norm hn]
    rw [if_neg (fun hh => hne ((isEmpty_iff_data_nil _).mp hh))]
    rw [ensurePeriod_of_getLast hc]
    cases pc with
    | true => rw [if_pos rfl]
    | false =>
      rw [if_neg Bool.false_ne_true]
      exact formatOptionText_capitalized s

/-! #### `dedup_by`, `sort_by`, blank-filter and tag-trimming fixpoints -/

theorem dedupByAux_sublist {α : Type} (same : α → α → Bool) :
    ∀ (a : α) (l : List α), List.Sublist (dedupByAux same a l) l := by
  intro a l
  induction l generalizing a with
  | nil => exact List.Sublist.refl []
  | cons x xs ih =>
    simp only [dedupByAux]
    cases hxa : same x a with
    | true =>
      rw [if_pos rfl]
      exact List.Sublist.cons x (ih a)
    | false =>
      rw [if_neg Bool.false_ne_true]
      exact List.Sublist.cons₂ x (ih x)

theorem dedupBy_sublist {α : Type} (same : α → α → Bool) (l : List α) :
    List.Sublist (dedupBy same l) l := by
  cases l with
  | nil => exact List.Sublist.refl []
  | cons a t =>
    show List.Sublist (a :: dedupByAux same a t) (a :: t)
    exact List.Sublist.cons₂ a (dedupByAux_sublist same a t)

theorem dedupByAux_chain {α : Type} (same : α → α → Bool) :
    ∀ (a : α) (l : List α),
      List.Chain' (fun y z => same z y = false) (a :: dedupByAux same a l) := by
  intro a l
  induction l generalizing a with
  | nil => exact List.chain'_singleton a
  | cons x xs ih =>
    simp only [dedupByAux]
    cases hxa : same x a with
    | true =>
      rw [if_pos rfl]
      exact ih a
    | false =>
      rw [if_neg Bool.false_ne_true]
      rw [List.chain'_cons]
      exact ⟨hxa, ih x⟩

theorem dedupByAux_of_chain {α : Type} (same : α → α → Bool) :
    ∀ (a : α) (l : List α),
      List.Chain' (fun y z => same z y = false) (a :: l) → dedupByAux same a l = l := by
  intro a l
  induction l generalizing a with
  | nil =>
    intro _
    rfl
  | cons x xs ih =>
    intro h
    rw [List.chain'_cons] at h
    simp only [dedupByAux]
    rw [if_neg (by rw [h.1]; exact Bool.false_ne_true)]
    rw [ih x h.2]

theorem dedupBy_idem {α : Type} (same : α → α → Bool) (l : List α) :
    dedupBy same (dedupBy same l) = dedupBy same l := by
  cases l with
  | nil => rfl
  | cons a t =>
    show a :: dedupByAux same a (dedupByAux same a t) = a :: dedupByAux same a t
    rw [dedupByAux_of_chain same a _ (dedupByAux_chain same a t)]

theorem map_eq_self_of_mem {α : Type} {f : α → α} :
    ∀ l : List α, (∀ x ∈ l, f x = x) → l.map f = l := by
  intro l
  induction l with
  | nil =>
    intro _
    rfl
  | cons a t ih =>
    intro h
    rw [List.map_cons, h a (List.mem_cons_self a t),
      ih (fun x hx => h x (List.mem_cons_of_mem a hx))]

theorem trimWs_idem (l : List Char) : trimWs (trimWs l) = trimWs l :=
  trimWs_of_norm (trimWs_headNonWs l) (trimWs_lastNonWs l)

theorem trimString_idem (s : String) : trimString (trimString s) = trimString s := by
  show (⟨trimWs (trimWs s.data)⟩ : String) = ⟨trimWs s.data⟩
  rw [trimWs_idem]

theorem tags_format_idem (l : List String) :
    (((l.map trimString).filter (fun t => !t.isEmpty)).map trimString).filter
        (fun t => !t.isEmpty) =
      (l.map trimString).filter (fun t => !t.isEmpty) := by
  have h1 : ((l.map trimString).filter (fun t => !t.isEmpty)).map trimString =
      (l.map trimString).filter (fun t => !t.isEmpty) := by
    apply map_eq_self_of_mem
    intro x hx
    obtain ⟨y, _, hy⟩ := List.mem_map.mp (List.mem_of_mem_filter hx)
    rw [← hy]
    exact trimString_idem y
  rw [h1]
  apply List.filter_eq_self.mpr
  intro x hx
  exact (List.mem_filter.mp hx).2

theorem tags_trim_idem (l : List String) :
    (l.map trimString).map trimString = l.map trimString := by
  apply map_eq_self_of_mem
  intro x hx
  obtain ⟨y, _, hy⟩ := List.mem_map.mp hx
  rw [← hy]
  exact trimString_idem y

theorem descr_trim_idem (o : Option String) :
    (o.map trimString).map trimString = o.map trimString := by
  cases o with
  | none => rfl
  | some s =>
    show some (trimString (trimString s)) = some (trimString s)
    rw [trimString_idem]

/-- The canonical option list (blank-filtered, sorted, deduplicated) is a
fixed point of filter-sort-dedup. -/
theorem canonical_options_fix (l : List QuestionOptionData) :
    dedupBy QuestionOptionData.eq_data (sortBy questionOptionCmp
      ((dedupBy QuestionOptionData.eq_data (sortBy questionOptionCmp
        (l.filter (fun o => !o.is_blank)))).filter (fun o => !o.is_blank))) =
    dedupBy QuestionOptionData.eq_data (sortBy questionOptionCmp
      (l.filter (fun o => !o.is_blank))) := by
  have hfil : (dedupBy QuestionOptionData.eq_data (sortBy questionOptionCmp
      (l.filter (fun o => !o.is_blank)))).filter (fun o => !o.is_blank) =
      dedupBy QuestionOptionData.eq_data (sortBy questionOptionCmp
      (l.filter (fun o => !o.is_blank))) := by
    apply List.filter_eq_self.mpr
    intro x hx
    have h1 : x ∈ sortBy questionOptionCmp (l.filter (fun o => !o.is_blank)) :=
      (dedupBy_sublist _ _).subset hx
    have h2 : x ∈ l.filter (fun o => !o.is_blank) := (sortBy_perm _ _).subset h1
    exact (List.mem_filter.mp h2).2
  rw [hfil]
  have hpw : (dedupBy QuestionOptionData.eq_data (sortBy questionOptionCmp
      (l.filter (fun o => !o.is_blank)))).Pairwise
      (fun x y => ¬ questionOptionCmp x y = .gt) :=
    (sortBy_pairwise questionOptionCmp qoc_asym qoc_trans _).sublist
      (dedupBy_sublist _ _)
  rw [sortBy_eq_of_pairwise _ _ hpw]
  exact dedupBy_idem _ _

/-- The canonical question list of a course is likewise a fixed point. -/
theorem canonical_questions_fix (l : List QuestionData) :
    dedupBy QuestionData.eq_data (sortBy questionCmp
      ((dedupBy QuestionData.eq_data (sortBy questionCmp
        (l.filter (fun q => !q.is_blank)))).filter (fun q => !q.is_blank))) =
    dedupBy QuestionData.eq_data (sortBy questionCmp
      (l.filter (fun q => !q.is_blank))) := by
  have hfil : (dedupBy QuestionData.eq_data (sortBy questionCmp
      (l.filter (fun q => !q.is_blank)))).filter (fun q => !q.is_blank) =
      dedupBy QuestionData.eq_data (sortBy questionCmp
      (l.filter (fun q => !q.is_blank))) := by
    apply List.filter_eq_self.mpr
    intro x hx
    have h1 : x ∈ sortBy questionCmp (l.filter (fun q => !q.is_blank)) :=
      (dedupBy_sublist _ _).subset hx
    have h2 : x ∈ l.filter (fun q => !q.is_blank) := (sortBy_perm _ _).subset h1
    exact (List.mem_filter.mp h2).2
  rw [hfil]
  have hpw : (dedupBy QuestionData.eq_data (sortBy questionCmp
      (l.filter (fun q => !q.is_blank)))).Pairwise
      (fun x y => ¬ questionCmp x y = .gt) :=
    (sortBy_pairwise questionCmp qc_asym qc_trans _).sublist (dedupBy_sublist _ _)
  rw [sortBy_eq_of_pairwise _ _ hpw]
  exact dedupBy_idem _ _

/-! #### Claim C6: idempotence of `process` -/

theorem option_process_eq (d : Digest) (o : QuestionOptionData) :
    QuestionOptionData.process d o = .ok ((o.format).refresh_hash d) := rfl

theorem option_format_idem (o : QuestionOptionData) : o.format.format = o.format := by
  show { o with text := formatOptionText o.preserve_case (formatOptionText o.preserve_case o.text) } = { o with text := formatOptionText o.preserve_case o.text }
  rw [formatOptionText_idem]

theorem option_process_idem (d : Digest) (o o' : QuestionOptionData)
    (h : QuestionOptionData.process d o = .ok o') :
    QuestionOptionData.process d o' = .ok o' := by
  rw [option_process_eq] at h
  have ho' : o' = (o.format).refresh_hash d := (Except.ok.inj h).symm
  subst ho'
  rw [option_process_eq]
  have ht : formatOptionText o.preserve_case (o.format).text = (o.format).text := by
    show formatOptionText o.preserve_case (formatOptionText o.preserve_case o.text) =
      formatOptionText o.preserve_case o.text
    exact formatOptionText_idem _ _
  have hf : ((o.format).refresh_hash d).format = (o.format).refresh_hash d := by
    show { o.format with
        text := formatOptionText o.preserve_case (o.format).text
        hash := d (o.format).to_bytes } = (o.format).refresh_hash d
    rw [ht]
    rfl
  rw [hf]
  rfl

theorem question_process_eq (d : Digest) (q : QuestionData) :
    QuestionData.process d q =
      match (((q.remove_blank_options).format).sortQ.deduplicate).check with
      | .error e => .error e
      | .ok _ =>
        .ok ((((q.remove_blank_options).format).sortQ.deduplicate).refresh_hash d) :=
  rfl

theorem question_process_ok_shape (d : Digest) (q q' : QuestionData)
    (h : QuestionData.process d q = .ok q') :
    (((q.remove_blank_options).format).sortQ.deduplicate).check = .ok () ∧
    q' = (((q.remove_blank_options).format).sortQ.deduplicate).refresh_hash d := by
  rw [question_process_eq] at h
  revert h
  cases hchk : (((q.remove_blank_options).format).sortQ.deduplicate).check with
  | error e =>
    intro h
    exact absurd h (by simp)
  | ok u =>
    intro h
    cases u
    simp only at h
    injection h with h
    exact ⟨rfl, h.symm⟩

theorem question_canonical_refresh_fix (d : Digest) (q : QuestionData) :
    ((((((((q.remove_blank_options).format).sortQ).deduplicate).refresh_hash
        d).remove_blank_options).format).sortQ).deduplicate =
      ((((q.remove_blank_options).format).sortQ).deduplicate).refresh_hash d := by
  cases q with
  | mk id course_key source text explanation topic topic_by tags image_file_name
      question_options hash =>
    simp only [QuestionData.remove_blank_options, QuestionData.format,
      QuestionData.sortQ, QuestionData.deduplicate, QuestionData.refresh_hash,
      QuestionData.mk.injEq, format_text_idem, tags_format_idem,
      canonical_options_fix, and_self]

theorem question_process_idem (d : Digest) (q q' : QuestionData)
    (h : QuestionData.process d q = .ok q') :
    QuestionData.process d q' = .ok q' := by
  obtain ⟨hchk, hq'⟩ := question_process_ok_shape d q q' h
  subst hq'
  rw [question_process_eq]
  rw [question_canonical_refresh_fix]
  have hcq : (((((q.remove_blank_options).format).sortQ).deduplicate).refresh_hash
      d).check = .ok () := hchk
  rw [hcq]
  rfl

theorem course_process_eq (d : Digest) (c : CourseData) :
    CourseData.process d c =
      match ((c.remove_blank_questions).format.sortQ.deduplicate).check with
      | .error e => .error e
      | .ok _ =>
        .ok (((c.remove_blank_questions).format.sortQ.deduplicate).refresh_hash d) :=
  rfl

theorem course_process_ok_check (d : Digest) (c c' : CourseData)
    (h : CourseData.process d c = .ok c') :
    ((c.remove_blank_questions).format.sortQ.deduplicate).check = .ok () := by
  rw [course_process_eq] at h
  revert h
  cases hchk : ((c.remove_blank_questions).format.sortQ.deduplicate).check with
  | error e =>
    intro h
    exact absurd h (by simp)
  | ok u =>
    intro _
    cases u
    rfl

theorem course_canonical_refresh_fix (d : Digest) (c : CourseData) :
    ((((((((c.remove_blank_questions).format).sortQ).deduplicate).refresh_hash
        d).remove_blank_questions).format).sortQ).deduplicate =
      ((((c.remove_blank_questions).format).sortQ).deduplicate).refresh_hash d := by
  cases c with
  | mk key name short_name description price_in_uyu tags image_file_name year
      order questions valid_topics hash =>
    simp only [CourseData.remove_blank_questions, CourseData.format,
      CourseData.sortQ, CourseData.deduplicate, CourseData.refresh_hash,
      CourseData.mk.injEq, trimString_idem, descr_trim_idem, tags_trim_idem,
      canonical_questions_fix, and_self]

theorem course_process_idem (d : Digest) (c c' : CourseData)
    (h : CourseData.process d c = .ok c') :
    CourseData.process d c' = .ok c' := by
  have hchk := course_process_ok_check d c c' h
  have hc' := course_process_ok_shape d c c' h
  subst hc'
  rw [course_process_eq]
  rw [course_canonical_refresh_fix]
  have hcq : (((((c.remove_blank_questions).format).sortQ).deduplicate).refresh_hash
      d).check = .ok () := hchk
  rw [hcq]
  rfl

/-- Claim C6: idempotence of the canonicalizer + hash engine. For each entity
kind (option, question, course), if `process` succeeded once, running
`process` on its output succeeds and returns the output itself — every field
(text formatting, option order and count, tags, and the stored fingerprint)
is a fixed point, so the fingerprint is unchanged. -/
theorem C6_process_idempotence :
    (∀ (d : Digest) (o o' : QuestionOptionData),
      QuestionOptionData.process d o = .ok o' →
        QuestionOptionData.process d o' = .ok o') ∧
    (∀ (d : Digest) (q q' : QuestionData),
      QuestionData.process d q = .ok q' → QuestionData.process d q' = .ok q') ∧
    (∀ (d : Digest) (c c' : CourseData),
      CourseData.process d c = .ok c' → CourseData.process d c' = .ok c') :=
  ⟨option_process_idem, question_process_idem, course_process_idem⟩

def c6Option : QuestionOptionData :=
  { id := 1, question_id := 9, text := "  option  1 ", correct := true,
    reference := 0, preserve_case := false, hash := [] }

def c6OptA : QuestionOptionData :=
  { id := 1, question_id := 9, text := "A.", correct := true, reference := 0,
    preserve_case := false, hash := [] }

def c6OptB : QuestionOptionData :=
  { id := 2, question_id := 9, text := "B.", correct := false, reference := 0,
    preserve_case := false, hash := [] }

def c6Source : QuestionSourceData :=
  { course_key := "c", type := .Exam, name := none, date := none, variant := none }

def c6Q : QuestionData :=
  { id := 9, course_key := "c", source := c6Source, text := "Q?",
    explanation := none, topic := { course_key := "c", name := "t" },
    topic_by := none, tags := [], image_file_name := none,
    question_options := [c6OptA, c6OptB], hash := [] }

def c6Course : CourseData :=
  { key := "k", name := "n", short_name := "s", description := none,
    price_in_uyu := 0, tags := [], image_file_name := "", year := none,
    order := none, questions := [c6Q], valid_topics := [], hash := [] }

def c6Option' : QuestionOptionData :=
  (c6Option.format).refresh_hash (fun b => b)

def c6Q' : QuestionData :=
  ((((c6Q.remove_blank_options).format).sortQ).deduplicate).refresh_hash (fun b => b)

def c6Course' : CourseData :=
  ((((c6Course.remove_blank_questions).format).sortQ).deduplicate).refresh_hash
    (fun b => b)

/-- Witness for C6: a concrete option, question and course each process
successfully with the identity digest, and a second `process` run returns the
first run's output unchanged. -/
theorem C6_witness :
    QuestionOptionData.process (fun b => b) c6Option = .ok c6Option' ∧
    QuestionOptionData.process (fun b => b) c6Option' = .ok c6Option' ∧
    QuestionData.process (fun b => b) c6Q = .ok c6Q' ∧
    QuestionData.process (fun b => b) c6Q' = .ok c6Q' ∧
    CourseData.process (fun b => b) c6Course = .ok c6Course' ∧
    CourseData.process (fun b => b) c6Course' = .ok c6Course' := by
  have h1 : QuestionOptionData.process (fun b => b) c6Option = .ok c6Option' := rfl
  have h2 : QuestionData.process (fun b => b) c6Q = .ok c6Q' := rfl
  have h3 : CourseData.process (fun b => b) c6Course = .ok c6Course' := rfl
  exact ⟨h1, C6_process_idempotence.1 _ _ _ h1, h2,
    C6_process_idempotence.2.1 _ _ _ h2, h3, C6_process_idempotence.2.2 _ _ _ h3⟩

/-! #### Injectivity of the UTF-8 byte encoding -/

theorem char_toNat_lt (c : Char) : c.toNat < 1114112 := by
  have h := c.valid
  rcases h with h | ⟨h1, h2⟩
  · exact Nat.lt_trans h (by norm_num)
  · exact h2

theorem utf8_head_inj {c c' : Char} {r r' : List Byte}
    (h : utf8Bytes c ++ r = utf8Bytes c' ++ r') : c = c' ∧ r = r' := by
  have hv := char_toNat_lt c
  have hv' := char_toNat_lt c'
  have key : c.toNat = c'.toNat := by
    have h2 := h
    simp only [utf8Bytes] at h2
    split_ifs at h2 <;>
      simp only [List.cons_append, List.nil_append, List.cons.injEq] at h2 <;>
      omega
  have hc : c = c' := char_toNat_inj key
  subst hc
  exact ⟨rfl, List.append_cancel_left h⟩

theorem utf8Bytes_ne_nil (c : Char) : utf8Bytes c ≠ [] := by
  simp only [utf8Bytes]
  split_ifs <;> simp

theorem charsBytes_inj : ∀ {l₁ l₂ : List Char},
    charsBytes l₁ = charsBytes l₂ → l₁ = l₂ := by
  intro l₁
  induction l₁ with
  | nil =>
    intro l₂ h
    cases l₂ with
    | nil => rfl
    | cons c t =>
      exfalso
      have h' : utf8Bytes c ++ charsBytes t = ([] : List Byte) :=
        (show charsBytes (c :: t) = utf8Bytes c ++ charsBytes t from rfl) ▸ h.symm
      exact utf8Bytes_ne_nil c (List.append_eq_nil.mp h').1
  | cons c t ih =>
    intro l₂ h
    cases l₂ with
    | nil =>
      exfalso
      have h' : utf8Bytes c ++ charsBytes t = ([] : List Byte) := h
      exact utf8Bytes_ne_nil c (List.append_eq_nil.mp h').1
    | cons c' t' =>
      have h' : utf8Bytes c ++ charsBytes t = utf8Bytes c' ++ charsBytes t' := h
      obtain ⟨hc, hr⟩ := utf8_head_inj h'
      rw [hc, ih hr]

theorem strBytes_inj {s₁ s₂ : String} (h : strBytes s₁ = strBytes s₂) : s₁ = s₂ := by
  apply String.ext
  exact charsBytes_inj h

/-! ### Claim C7: the legacy generation (`src/data.rs`)

Content tree with bottom-up hash refresh (`set_data`): a parent's
`hashable_data` embeds each child's stored fingerprint bytes, and
`hash = hash_data()` (the blake3 hex of `hashable_data`) is modelled by the
abstract digest `d`. -/

namespace Legacy

/-- `data.rs` `QuestionOptionData` (legacy generation; uuids as `Nat`, the
hex fingerprint string as `List Byte` via the abstract digest). -/
structure QuestionOptionData where
  id : Nat
  question_id : Option Nat
  text : String
  correct : Bool
  explanation : Option String
  hash : List Byte
deriving DecidableEq

/-- The legacy encoding of an optional string field: the string's bytes when
present, zero bytes when absent (`if let Some(x) = ... { bytes.extend(..) }`).
Note it does not distinguish `none` from `some ""`. -/
def optStrBytes : Option String → List Byte
  | some e => strBytes e
  | none => []

/-- `impl Hashable for QuestionOptionData` (`hashable_data`): id bytes,
`question_id` bytes (the source `expect`s it to be set; `set_data` always
sets it, so the `none` arm — encoding to `[]` here — is unreachable there),
text bytes, the correctness byte, and explanation bytes when present. -/
def QuestionOptionData.hashable_data (o : QuestionOptionData) : List Byte :=
  uuidBytes o.id ++
  (match o.question_id with | some q => uuidBytes q | none => []) ++
  strBytes o.text ++
  [if o.correct then 1 else 0] ++
  optStrBytes o.explanation

/-- `QuestionOptionData::set_data`: set the back-reference, then `set_hash`
(`hash = hash_data()`, the digest of `hashable_data`). -/
def QuestionOptionData.set_data (d : Digest) (question_id : Nat)
    (o : QuestionOptionData) : QuestionOptionData :=
  let o := { o with question_id := some question_id }
  { o with hash := d o.hashable_data }

/-- `data.rs` `QuestionData` (legacy generation). -/
structure QuestionData where
  id : Nat
  course_key : Option String
  evaluation : String
  source : String
  asked_at : Option Int
  text : String
  image_file_name : Option String
  question_options : List QuestionOptionData
  hash : List Byte
deriving DecidableEq

/-- `impl Hashable for QuestionData` (`hashable_data`): id, course key (set
by `set_data`; the `none` arm is unreachable there), text, optional image
file name, the concatenation of the options' stored fingerprint bytes,
evaluation, source, and the optional asked-at date rendered as a string. -/
def QuestionData.hashable_data (q : QuestionData) : List Byte :=
  uuidBytes q.id ++
  (match q.course_key with | some k => strBytes k | none => []) ++
  strBytes q.text ++
  (match q.image_file_name with | some f => strBytes f | none => []) ++
  listBytes QuestionOptionData.hash q.question_options ++
  strBytes q.evaluation ++
  strBytes q.source ++
  (match q.asked_at with | some t => strBytes (toString t) | none => [])

/-- `QuestionData::set_data`: set the course key, refresh each option with
this question's id, then `set_hash`. -/
def QuestionData.set_data (d : Digest) (course_key : String) (q : QuestionData) :
    QuestionData :=
  let q := { q with course_key := some course_key }
  let q := { q with question_options :=
    q.question_options.map (QuestionOptionData.set_data d q.id) }
  { q with hash := d q.hashable_data }

/-- `data.rs` `CourseEvaluationData` (legacy generation). -/
structure CourseEvaluationData where
  key : String
  course_key : Option String
  name : String
  order : Option Int
  hash : List Byte
deriving DecidableEq

/-- `i16::to_be_bytes` (two's complement, big-endian). -/
def i16BeBytes (y : Int) : List Byte :=
  [(y % 65536).toNat / 256, (y % 65536).toNat % 256]

/-- `impl Hashable for CourseEvaluationData` (`hashable_data`). -/
def CourseEvaluationData.hashable_data (e : CourseEvaluationData) : List Byte :=
  (match e.course_key with | some k => strBytes k | none => []) ++
  strBytes e.name ++
  (match e.order with | some o => i16BeBytes o | none => [])

/-- `CourseEvaluationData::set_data`. -/
def CourseEvaluationData.set_data (d : Digest) (course_key : String)
    (e : CourseEvaluationData) : CourseEvaluationData :=
  let e := { e with course_key := some course_key }
  { e with hash := d e.hashable_data }

/-- `data.rs` `CourseData` (legacy generation). -/
structure CourseData where
  key : String
  name : String
  short_name : String
  tags : List String
  image_file_name : Option String
  year : Option Int
  order : Option Int
  questions : List QuestionData
  evaluations : List CourseEvaluationData
  hash : List Byte
deriving DecidableEq

/-- `Vec::join(",")` on the tags. -/
def joinComma : List String → String
  | [] => ""
  | [s] => s
  | s :: t => s ++ "," ++ joinComma t

/-- `impl Hashable for CourseData` (`hashable_data`): key, name, short name,
comma-joined tags, optional image name, optional big-endian year and order,
then each question's stored fingerprint bytes and each evaluation's stored
fingerprint bytes. -/
def CourseData.hashable_data (c : CourseData) : List Byte :=
  strBytes c.key ++
  strBytes c.name ++
  strBytes c.short_name ++
  strBytes (joinComma c.tags) ++
  (match c.image_file_name with | some f => strBytes f | none => []) ++
  (match c.year with | some y => i16BeBytes y | none => []) ++
  (match c.order with | some o => i16BeBytes o | none => []) ++
  listBytes QuestionData.hash c.questions ++
  listBytes CourseEvaluationData.hash c.evaluations

/-- `CourseData::set_data`: refresh every question and evaluation bottom-up
with this course's key, then `set_hash`. -/
def CourseData.set_data (d : Digest) (c : CourseData) : CourseData :=
  let c := { c with questions := c.questions.map (QuestionData.set_data d c.key) }
  let c := { c with evaluations :=
    c.evaluations.map (CourseEvaluationData.set_data d c.key) }
  { c with hash := d c.hashable_data }

end Legacy

theorem listBytes_append {α : Type} (f : α → List Byte) :
    ∀ l₁ l₂ : List α, listBytes f (l₁ ++ l₂) = listBytes f l₁ ++ listBytes f l₂ := by
  intro l₁ l₂
  induction l₁ with
  | nil => rfl
  | cons a t ih =>
    show f a ++ listBytes f (t ++ l₂) = (f a ++ listBytes f t) ++ listBytes f l₂
    rw [ih, List.append_assoc]

/-- Claim C7 amended: sensitivity and isolation of the legacy bottom-up
hashing (`src/data.rs`). `Function.Injective d` idealizes the collision
freeness of the blake3 digest. Changing one option's correctness flag, its
text, or its explanation — the latter provided the optional byte encoding of
the explanation actually changes, which `C7_counterexample` shows is a real
proviso: `none` and `some ""` encode identically — and re-running the
bottom-up `set_data` changes the option's fingerprint, the owning question's
fingerprint and the course's fingerprint (each parent encoding embeds its
children's fingerprint bytes), while every other question of the course —
with all its options and stored fingerprints — is exactly unchanged. -/
theorem C7_sensitivity_isolation :
    ∀ (d : Digest), Function.Injective d →
    ∀ (c : Legacy.CourseData) (pre post : List Legacy.QuestionData)
      (q : Legacy.QuestionData) (opre opost : List Legacy.QuestionOptionData)
      (o o' : Legacy.QuestionOptionData) (q' : Legacy.QuestionData)
      (c' : Legacy.CourseData),
    c.questions = pre ++ q :: post →
    q.question_options = opre ++ o :: opost →
    ((∃ b, ¬ b = o.correct ∧ o' = { o with correct := b }) ∨
      (∃ t, ¬ t = o.text ∧ o' = { o with text := t }) ∨
      (∃ x, ¬ Legacy.optStrBytes x = Legacy.optStrBytes o.explanation ∧
        o' = { o with explanation := x })) →
    q' = { q with question_options := opre ++ o' :: opost } →
    c' = { c with questions := pre ++ q' :: post } →
    ¬ (Legacy.QuestionOptionData.set_data d q.id o').hash =
        (Legacy.QuestionOptionData.set_data d q.id o).hash ∧
    ¬ (Legacy.QuestionData.set_data d c.key q').hash =
        (Legacy.QuestionData.set_data d c.key q).hash ∧
    ¬ (Legacy.CourseData.set_data d c').hash = (Legacy.CourseData.set_data d c).hash ∧
    (Legacy.CourseData.set_data d c').questions =
      pre.map (Legacy.QuestionData.set_data d c.key) ++
        Legacy.QuestionData.set_data d c.key q' ::
          post.map (Legacy.QuestionData.set_data d c.key) ∧
    (Legacy.CourseData.set_data d c).questions =
      pre.map (Legacy.QuestionData.set_data d c.key) ++
        Legacy.QuestionData.set_data d c.key q ::
          post.map (Legacy.QuestionData.set_data d c.key) := by
  intro d hinj c pre post q opre opost o o' q' c' hq ho hch hq' hc'
  subst hq'
  subst hc'
  have hopt : ¬ (Legacy.QuestionOptionData.set_data d q.id o').hash =
      (Legacy.QuestionOptionData.set_data d q.id o).hash := by
    intro hcon
    have hbytes : Legacy.QuestionOptionData.hashable_data
        { o' with question_id := some q.id } =
        Legacy.QuestionOptionData.hashable_data
        { o with question_id := some q.id } := hinj hcon
    rcases hch with ⟨b, hb, rfl⟩ | ⟨t, ht, rfl⟩ | ⟨x, hx, rfl⟩
    · obtain ⟨oid, oqid, otext, ocorr, oexpl, ohash⟩ := o
      simp only [Legacy.QuestionOptionData.hashable_data, List.append_assoc] at hbytes
      have h1 := List.append_cancel_left hbytes
      have h2 := List.append_cancel_left h1
      have h3 := List.append_cancel_left h2
      simp only [List.cons_append, List.nil_append, List.cons.injEq] at h3
      have h4 := h3.1
      cases b <;> cases ocorr
      · exact hb rfl
      · simp at h4
      · simp at h4
      · exact hb rfl
    · obtain ⟨oid, oqid, otext, ocorr, oexpl, ohash⟩ := o
      simp only [Legacy.QuestionOptionData.hashable_data, List.append_assoc] at hbytes
      have h1 := List.append_cancel_left hbytes
      have h2 := List.append_cancel_left h1
      have h3 := List.append_cancel_right h2
      exact ht (strBytes_inj h3)
    · obtain ⟨oid, oqid, otext, ocorr, oexpl, ohash⟩ := o
      simp only [Legacy.QuestionOptionData.hashable_data, List.append_assoc] at hbytes
      have h1 := List.append_cancel_left hbytes
      have h2 := List.append_cancel_left h1
      have h3 := List.append_cancel_left h2
      have h4 := List.append_cancel_left h3
      exact hx h4
  have hques : ¬ (Legacy.QuestionData.set_data d c.key
      { q with question_options := opre ++ o' :: opost }).hash =
      (Legacy.QuestionData.set_data d c.key q).hash := by
    intro hcon
    have hbytes := hinj hcon
    obtain ⟨qid, qck, qeval, qsrc, qasked, qtext, qimg, qopts, qhash⟩ := q
    subst ho
    simp only [Legacy.QuestionData.set_data, Legacy.QuestionData.hashable_data,
      List.map_append, List.map_cons, listBytes_append, listBytes,
      List.append_assoc] at hbytes
    have h1 := List.append_cancel_left hbytes
    have h2 := List.append_cancel_left h1
    have h3 := List.append_cancel_left h2
    have h4 := List.append_cancel_left h3
    have h5 := List.append_cancel_left h4
    have h6 := List.append_cancel_right h5
    exact hopt h6
  refine ⟨hopt, hques, ?_, ?_, ?_⟩
  · intro hcon
    have hbytes := hinj hcon
    obtain ⟨ckey, cname, cshort, ctags, cimg, cyear, corder, cquestions, cevals,
      chash⟩ := c
    subst hq
    simp only [Legacy.CourseData.set_data, Legacy.CourseData.hashable_data,
      List.map_append, List.map_cons, listBytes_append, listBytes,
      List.append_assoc] at hbytes
    have h1 := List.append_cancel_left hbytes
    have h2 := List.append_cancel_left h1
    have h3 := List.append_cancel_left h2
    have h4 := List.append_cancel_left h3
    have h5 := List.append_cancel_left h4
    have h6 := List.append_cancel_left h5
    have h7 := List.append_cancel_left h6
    have h8 := List.append_cancel_left h7
    have h9 := List.append_cancel_right h8
    exact hques h9
  · obtain ⟨ckey, cname, cshort, ctags, cimg, cyear, corder, cquestions, cevals,
      chash⟩ := c
    subst hq
    simp only [Legacy.CourseData.set_data, List.map_append, List.map_cons]
  · obtain ⟨ckey, cname, cshort, ctags, cimg, cyear, corder, cquestions, cevals,
      chash⟩ := c
    subst hq
    simp only [Legacy.CourseData.set_data, List.map_append, List.map_cons]

def c7Opt : Legacy.QuestionOptionData :=
  { id := 1, question_id := none, text := "A.", correct := true,
    explanation := none, hash := [] }

def c7OptB : Legacy.QuestionOptionData :=
  { id := 2, question_id := none, text := "B.", correct := false,
    explanation := none, hash := [] }

def c7OptFlip : Legacy.QuestionOptionData := { c7Opt with correct := false }

def c7Q : Legacy.QuestionData :=
  { id := 9, course_key := none, evaluation := "e", source := "s",
    asked_at := none, text := "Q?", image_file_name := none,
    question_options := [c7Opt, c7OptB], hash := [] }

def c7Q2 : Legacy.QuestionData :=
  { id := 10, course_key := none, evaluation := "e", source := "s",
    asked_at := none, text := "R?", image_file_name := none,
    question_options := [], hash := [] }

def c7Course : Legacy.CourseData :=
  { key := "k", name := "n", short_name := "s", tags := [],
    image_file_name := none, year := none, order := none,
    questions := [c7Q, c7Q2], evaluations := [], hash := [] }

def c7QMod : Legacy.QuestionData :=
  { c7Q with question_options := [c7OptFlip, c7OptB] }

def c7CourseMod : Legacy.CourseData :=
  { c7Course with questions := [c7QMod, c7Q2] }

/-- Witness for C7 at concrete records with the identity digest: flipping
the correctness of the first option of the first question changes the
option, question and course fingerprints and leaves the sibling question's
processed record unchanged. -/
theorem C7_witness :
    ¬ (Legacy.QuestionOptionData.set_data (fun b => b) c7Q.id c7OptFlip).hash =
        (Legacy.QuestionOptionData.set_data (fun b => b) c7Q.id c7Opt).hash ∧
    ¬ (Legacy.QuestionData.set_data (fun b => b) c7Course.key c7QMod).hash =
        (Legacy.QuestionData.set_data (fun b => b) c7Course.key c7Q).hash ∧
    ¬ (Legacy.CourseData.set_data (fun b => b) c7CourseMod).hash =
        (Legacy.CourseData.set_data (fun b => b) c7Course).hash ∧
    (Legacy.CourseData.set_data (fun b => b) c7CourseMod).questions =
      [Legacy.QuestionData.set_data (fun b => b) c7Course.key c7QMod,
        Legacy.QuestionData.set_data (fun b => b) c7Course.key c7Q2] ∧
    (Legacy.CourseData.set_data (fun b => b) c7Course).questions =
      [Legacy.QuestionData.set_data (fun b => b) c7Course.key c7Q,
        Legacy.QuestionData.set_data (fun b => b) c7Course.key c7Q2] :=
  C7_sensitivity_isolation (fun b => b) (fun _ _ h => h) c7Course [] [c7Q2] c7Q
    [] [c7OptB] c7Opt c7OptFlip c7QMod c7CourseMod rfl rfl
    (Or.inl ⟨false, by decide, rfl⟩) rfl rfl

def c7OptExpl : Legacy.QuestionOptionData := { c7Opt with explanation := some "" }

def c7QExpl : Legacy.QuestionData := { c7Q with question_options := [c7OptExpl, c7OptB] }

def c7CourseExpl : Legacy.CourseData := { c7Course with questions := [c7QExpl, c7Q2] }

/-- Claim C7 counterexample, refuting the claim for arbitrary single
content-field changes: changing the `explanation` content field of an option
from `none` to `some ""` and recomputing hashes bottom-up leaves the
option's, the owning question's and the course's fingerprints unchanged for
every digest, because the legacy optional encoding emits zero bytes for an
absent field and for the empty string alike. -/
theorem C7_counterexample :
    (some "" : Option String) ≠ c7Opt.explanation ∧
    ∀ d : Digest,
      (Legacy.QuestionOptionData.set_data d c7Q.id c7OptExpl).hash =
        (Legacy.QuestionOptionData.set_data d c7Q.id c7Opt).hash ∧
      (Legacy.QuestionData.set_data d c7Course.key c7QExpl).hash =
        (Legacy.QuestionData.set_data d c7Course.key c7Q).hash ∧
      (Legacy.CourseData.set_data d c7CourseExpl).hash =
        (Legacy.CourseData.set_data d c7Course).hash :=
  ⟨by decide, fun d => ⟨rfl, rfl, rfl⟩⟩

end MediciShared
